import Mathlib

/-!
# Verification of the meta_h reflection-based serialization engine

This file is a shallow embedding, in Lean 4, of the core (de)serialization
engine of the `meta_h` repository and of its YAML-only variant:

* `src/meta.h`       — the format-agnostic engine (`meta::from`, `meta::to`,
  `meta::fromStruct`, `meta::fromPair`, `meta::fromVector`, `meta::fromMap`,
  `meta::fromOptional`, `meta::reifyFromYaml`, `meta::ValidationResult`), and
* `src/yaml-only/meta_yaml.h` — the minimal YAML-direct variant
  (`meta::from` overload family, `meta::fromYaml`, `EnumTraitsAuto`), and
* `src/field.h`      — the constraint attributes (`BoundsCheck`,
  `StringLength`, `Whitelist`).

The supported type universe of the engine (primitives, optional, vector,
string-keyed map, pair, registered enum, record-with-field-metadata) is
embedded as the deep type `Shape`, and runtime values as the untyped `Value`.
The format backend (yaml-cpp) is external to the repository; it is abstracted
at the engine's own `Node` interface: a parsed document is a tree whose
scalar leaves expose the four coercions (`asInt`, `asDouble`, `asBool`,
`asString`) that the two wrapper classes (`meta::YamlNode` in meta.h,
`meta::Node` in meta_yaml.h) obtain from yaml-cpp.  Two well-known facts of
that external interface are reflected in the model: a map lookup for an
absent key yields an *undefined* zombie node (`Node.undefined` below — its
`IsNull()` is false, all coercions fail, and its boolean conversion
`IsDefined()` is false), and an explicit YAML `null` value yields a *null*
node (`Node.null`).

The engine of `meta.h` is embedded in namespace `MetaH`, the engine of
`meta_yaml.h` in namespace `MetaYaml`.  Each `fromNode` clause is a direct
translation of the corresponding C++ overload; comments cite the source
lines.
-/

namespace MetaHSpec

/-- `meta::Requirement` (meta.h:85, meta_yaml.h:86). -/
inductive Requirement where
  | required
  | optionalF
deriving DecidableEq, Repr

/-- `meta::ValidationResult` (meta.h:98-108, meta_yaml.h:109-117):
an overall validity flag plus an ordered list of `(fieldPath, message)`
pairs. -/
structure VResult where
  valid : Bool := true
  errors : List (String × String) := []
deriving DecidableEq, Repr

/-- `ValidationResult::addError`: sets `valid = false` and appends the
`(field, message)` pair at the end of `errors` (push_back). -/
def VResult.addError (r : VResult) (f m : String) : VResult :=
  { valid := false, errors := r.errors ++ [(f, m)] }

/-- A fresh, valid result (`ValidationResult()`). -/
def okR : VResult := {}

/-- A result carrying exactly one error, as produced by
`ValidationResult r; r.addError(f, m); return r;`. -/
def err1 (f m : String) : VResult := okR.addError f m

/-- Sequential composition of two result contributions produced by one C++
function body: errors accumulate in order, validity is conjunctive.  This is
observationally the threading of a single `ValidationResult` accumulator
through consecutive `addError` calls. -/
def mergeR (a b : VResult) : VResult :=
  { valid := a.valid && b.valid, errors := a.errors ++ b.errors }

/-- Path composition used at every merge point of the engine:
`prefix + (f.empty() ? "" : "." + f)`. -/
def joinPath (p f : String) : String :=
  p ++ (if f = "" then "" else "." ++ f)

/-- The contribution that the pattern
`if (!r.valid) for (auto& [f, e] : r.errors) result.addError(prefix ⊕ f, e);`
adds to the accumulator: nothing when `r` is valid, otherwise all of `r`'s
errors with the prefix path-joined in front. -/
def prefixedR (p : String) (r : VResult) : VResult :=
  if r.valid then okR
  else r.errors.foldl (fun acc fe => acc.addError (joinPath p fe.1) fe.2) okR

/-- The invariant claimed by the specification for every returned result:
`valid == errors.is_empty()`. -/
def VResult.inv (r : VResult) : Prop := r.valid = r.errors.isEmpty

/-- A scalar tree leaf, abstracted at the engine's node interface: the four
coercions the wrappers obtain from yaml-cpp (`as<int>`, `as<double>`,
`as<bool>`, `as<std::string>`, each returning "no value" when the underlying
conversion throws). -/
structure Scalar where
  asInt : Option Int := none
  asDouble : Option Rat := none
  asBool : Option Bool := none
  asString : Option String := none
deriving DecidableEq, Repr

/-- The scalar the external backend yields for an integer written by the
engine (`writeInt` / `YAML::Node(int)`): all numeric coercions succeed, the
string coercion returns the decimal digits. -/
def Scalar.ofInt (i : Int) : Scalar :=
  { asInt := some i, asDouble := some (i : Rat), asString := some (toString i) }

/-- The scalar the backend yields for a written double: the double coercion
succeeds; the integer coercion succeeds only when the value is integral (a
non-integral double prints with a fractional part, on which `as<int>`
throws).  The string coercion is never consulted by the engine on numeric
scalars and is left absent. -/
def Scalar.ofDouble (q : Rat) : Scalar :=
  { asInt := if q.den = 1 then some q.num else none, asDouble := some q }

/-- The scalar the backend yields for a written boolean. -/
def Scalar.ofBool (b : Bool) : Scalar :=
  { asBool := some b,
    asString := some (if b then "true" else "false") }

/-- The scalar the backend yields for a written string: the string coercion
returns it verbatim. -/
def Scalar.ofString (s : String) : Scalar :=
  { asString := some s }

/-- The tree-node abstraction (`meta::Node`, meta.h:128-141 and the concrete
`meta::YamlNode` meta.h:161-211 / `meta::Node` meta_yaml.h:123-158).
`null` is an explicit YAML null; `undefined` is the yaml-cpp zombie node
returned for an absent map key. -/
inductive Node where
  | scalar (sc : Scalar)
  | seq (xs : List Node)
  | map (kvs : List (String × Node))
  | null
  | undefined
deriving Repr

/-- `asInt`: succeeds only on a scalar whose integer coercion succeeds. -/
def Node.asInt : Node → Option Int
  | .scalar sc => sc.asInt
  | _ => none

/-- `asDouble` (meta_yaml.h:132 only; meta.h's `Node` interface has no double
accessor). -/
def Node.asDouble : Node → Option Rat
  | .scalar sc => sc.asDouble
  | _ => none

def Node.asBool : Node → Option Bool
  | .scalar sc => sc.asBool
  | _ => none

def Node.asString : Node → Option String
  | .scalar sc => sc.asString
  | _ => none

def Node.isSequence : Node → Bool
  | .seq _ => true
  | _ => false

def Node.isMap : Node → Bool
  | .map _ => true
  | _ => false

/-- `IsNull()`: true exactly on an explicit null.  In particular it is
*false* on the `undefined` zombie node of an absent key — the classic
yaml-cpp distinction between Null and Undefined. -/
def Node.isNull : Node → Bool
  | .null => true
  | _ => false

/-- `size()`: element count of a sequence or map, `0` otherwise. -/
def Node.size : Node → Nat
  | .seq xs => xs.length
  | .map kvs => kvs.length
  | _ => 0

/-- Positional child access `at(size_t)`; out-of-range or non-sequence
access yields the zombie node. -/
def Node.atIdx : Node → Nat → Node
  | .seq xs, i => xs.getD i .undefined
  | _, _ => .undefined

/-- Keyed child access of `meta::YamlNode::at(std::string)` (meta.h:196-201):
`if (!node[k]) return nullptr;` — `none` exactly when the key is absent (or
the node is not a map), mirroring yaml-cpp's falsy zombie. -/
def Node.atKeyH : Node → String → Option Node
  | .map kvs, k => kvs.lookup k
  | _, _ => none

/-- Keyed child access of `meta::Node::at` in meta_yaml.h:150: always returns
a node; an absent key (or non-map receiver) yields the zombie. -/
def Node.atKeyY (n : Node) (k : String) : Node :=
  (n.atKeyH k).getD .undefined

/-- `keys()` (meta.h:203-210, meta_yaml.h:151-157): the scalar keys of a map
in document order (duplicates included), empty for non-maps. -/
def Node.keys : Node → List String
  | .map kvs => kvs.map Prod.fst
  | _ => []

mutual

/-- The deep embedding of the engine's supported type universe.  A `Shape`
is the static type `T` that selects the `meta::from` / `meta::to` overload:
primitives, `std::optional`, `std::vector`, string-keyed `std::map`,
`std::pair`, a registered enum (carrying its `EnumMapping` array of
(value, name) pairs, values abstracted as `Nat`), or a record type carrying
its static `fields` metadata list. -/
inductive Shape where
  | int
  | double
  | bool
  | str
  | opt (s : Shape)
  | vec (s : Shape)
  | smap (s : Shape)
  | pair (a b : Shape)
  | enum (m : List (Nat × String))
  | record (fs : FieldList)

/-- The record metadata: the ordered list of `meta::Field` descriptors
(name, requirement, member type). -/
inductive FieldList where
  | nil
  | cons (name : String) (rq : Requirement) (s : Shape) (rest : FieldList)

end

/-- Runtime values, untyped; `HasShape`-style conformance is imposed where a
theorem needs it.  A record value is the positional list of its member
values, aligned with its `FieldList`. -/
inductive Value where
  | vint (i : Int)
  | vdouble (q : Rat)
  | vbool (b : Bool)
  | vstr (s : String)
  | vnone
  | vsome (v : Value)
  | vvec (xs : List Value)
  | vmap (kvs : List (String × Value))
  | vpair (a b : Value)
  | venum (k : Nat)
  | vrec (fields : List Value)
deriving Repr

mutual

/-- The value-initialized object `T obj{}` that every entry point starts
from (and `T elem{}` / `V v{}` inside the container loops): zeros,
empty containers, absent optional, enum underlying value `0`. -/
def defaultValue : Shape → Value
  | .int => .vint 0
  | .double => .vdouble 0
  | .bool => .vbool false
  | .str => .vstr ""
  | .opt _ => .vnone
  | .vec _ => .vvec []
  | .smap _ => .vmap []
  | .pair a b => .vpair (defaultValue a) (defaultValue b)
  | .enum _ => .venum 0
  | .record fs => .vrec (defaultFields fs)

def defaultFields : FieldList → List Value
  | .nil => []
  | .cons _ _ s rest => defaultValue s :: defaultFields rest

end

/-- The names of a record's registered fields, in declaration order. -/
def fieldNames : FieldList → List String
  | .nil => []
  | .cons name _ _ rest => name :: fieldNames rest

/-- `EnumTraitsAuto::toString` (meta.h:58-62, meta_yaml.h:48-51): lookup in
the `enumToString` hash map built by `for (auto [e, s] : mapping) m[e] = s;`
— on duplicate enum values the last declaration wins, hence the reversed
search; an unregistered value yields `""`. -/
def enumToString (m : List (Nat × String)) (k : Nat) : String :=
  ((m.reverse.find? (fun p => p.1 == k)).map Prod.snd).getD ""

/-- `EnumTraitsAuto::fromString` (meta.h:64-68, meta_yaml.h:53-56): lookup in
the `stringToEnum` hash map built with `m[s] = e` — last declaration wins on
duplicate names. -/
def stringToEnum (m : List (Nat × String)) (s : String) : Option Nat :=
  (m.reverse.find? (fun p => p.2 == s)).map Prod.fst

/-- A single-quote character, used by the enum diagnostics. -/
def sq : String := String.singleton (Char.ofNat 39)

/-- `"" + str + ""` single-quoted. -/
def quoteS (s : String) : String := sq ++ s ++ sq

/-- The joining loop of `EnumTraitsAuto::getValidValues` (meta_yaml.h:58-67):
quote each name, separate by `", "`. -/
def joinQuoted : List String → String
  | [] => ""
  | s :: rest => rest.foldl (fun acc t => acc ++ ", " ++ quoteS t) (quoteS s)

/-- Duplicate removal keeping first occurrences (the key set of the
`stringToEnum` hash map, in declaration order). -/
def firstDedup : List String → List String
  | [] => []
  | s :: rest => s :: firstDedup (rest.filter (fun t => !(t == s)))
termination_by l => l.length
decreasing_by
  simp only [List.length_cons]
  exact Nat.lt_succ_of_le (List.length_filter_le _ _)

/-- `EnumTraitsAuto::getValidValues` (meta_yaml.h:58-67): the quoted, joined
names of the enum's string-to-value table.  The C++ iterates an
`unordered_map` whose traversal order is unspecified; the model fixes the
declaration order (with later duplicates of a name removed, as the hash-map
key set does).  Every theorem drawn from this definition is
order-insensitive (membership of each quoted name). -/
def getValidValues (m : List (Nat × String)) : String :=
  joinQuoted (firstDedup (m.map Prod.snd))

/-- `std::map<std::string, V>::operator[] = v`: ordered insertion keyed by
the string order, replacing the mapped value when the key is already
present. -/
def mapInsert : List (String × Value) → String → Value → List (String × Value)
  | [], k, v => [(k, v)]
  | (k0, v0) :: rest, k, v =>
    if k < k0 then (k, v) :: (k0, v0) :: rest
    else if k = k0 then (k, v) :: rest
    else (k0, v0) :: mapInsert rest k v

mutual

/-- The write-side dispatcher at the tree level.  In `meta.h` this is the
`meta::to` overload family (meta.h:776-901) driving a `Builder`; in
`meta_yaml.h` it is the `meta::to` family (meta_yaml.h:383-485) building a
`YAML::Node` directly.  Both emit the same tree: records and maps as a map
of child trees (metadata order / key order), vectors as a sequence,
pairs as a two-element (flow) sequence, enums as their registered name,
absent optionals as a null (meta.h writes the literal `"null"`, which the
external backend reads back as a YAML null; meta_yaml.h emits
`YAML::Node()`), present optionals transparently.  Value/shape mismatches
cannot arise in the statically-typed source and are mapped to null. -/
def toNode : Shape → Value → Node
  | .int, .vint i => .scalar (.ofInt i)
  | .double, .vdouble q => .scalar (.ofDouble q)
  | .bool, .vbool b => .scalar (.ofBool b)
  | .str, .vstr s => .scalar (.ofString s)
  | .opt s, .vsome v => toNode s v
  | .opt _, .vnone => .null
  | .vec s, .vvec xs => .seq (xs.map (fun v => toNode s v))
  | .smap s, .vmap kvs => .map (kvs.map (fun kv => (kv.1, toNode s kv.2)))
  | .pair a b, .vpair va vb => .seq [toNode a va, toNode b vb]
  | .enum m, .venum k => .scalar (.ofString (enumToString m k))
  | .record fs, .vrec vs => .map (toNodeFields fs vs)
  | _, _ => .null

def toNodeFields : FieldList → List Value → List (String × Node)
  | .nil, _ => []
  | .cons name _ s rest, vs =>
    (name, toNode s (vs.headD (defaultValue s))) :: toNodeFields rest vs.tail

end

/-- The element loop shared verbatim by both vector overloads
(meta.h:473-487, meta_yaml.h:257-268), abstracted over the element reader
`from(elem, elemNode)`: each element is read into a fresh default; a failing
element contributes its errors prefixed with `"[i]"` and is excluded from
the output; processing always continues. -/
def seqLoop (read : Node → Value × VResult) : Nat → List Node → List Value × VResult
  | _, [] => ([], okR)
  | i, x :: xs =>
    let p := read x
    let q := seqLoop read (i + 1) xs
    if p.2.valid then (p.1 :: q.1, q.2)
    else (q.1, mergeR (prefixedR ("[" ++ toString i ++ "]") p.2) q.2)

/-- The key loop of `meta::fromMap` (meta.h:500-516), abstracted over the
value reader: every document key is visited; `if (!vNode) continue;` skips
unfindable keys; a failing value contributes its errors prefixed with the
key and is excluded from the output map. -/
def mapLoopH (read : Node → Value × VResult) :
    List String → Node → List (String × Value) → List (String × Value) × VResult
  | [], _, acc => (acc, okR)
  | k :: ks, n, acc =>
    match n.atKeyH k with
    | none => mapLoopH read ks n acc
    | some vn =>
      let p := read vn
      if p.2.valid then mapLoopH read ks n (mapInsert acc k p.1)
      else
        let q := mapLoopH read ks n acc
        (q.1, mergeR (prefixedR k p.2) q.2)

/-- The key loop of the meta_yaml.h map overload (meta_yaml.h:280-291):
as `mapLoopH`, but fetching the value with the total accessor (there is no
null check in this source). -/
def mapLoopY (read : Node → Value × VResult) :
    List String → Node → List (String × Value) → List (String × Value) × VResult
  | [], _, acc => (acc, okR)
  | k :: ks, n, acc =>
    let p := read (n.atKeyY k)
    if p.2.valid then mapLoopY read ks n (mapInsert acc k p.1)
    else
      let q := mapLoopY read ks n acc
      (q.1, mergeR (prefixedR k p.2) q.2)

namespace MetaH

mutual

/-- The deserialization dispatcher of `meta.h`, one clause per `meta::from`
overload:

* `.int`    — meta.h:683-694: `asInt`; failure emits `"Invalid integer"` at
  the current (empty) path and leaves the slot unchanged.
* `.double` — meta.h:696-702: reads via `asInt()` only (the meta.h `Node`
  interface has no double accessor) and, when that coercion fails, returns a
  *valid, empty* result leaving the slot unchanged — no error is emitted.
* `.str`    — meta.h:704-715, `.bool` — meta.h:717-728.
* `.enum`   — meta.h:389-408: requires a text node (`"Invalid enum"`),
  then consults the registry (`"Unknown enum value: <s>"`).
* `.opt`    — meta.h:519-532 `fromOptional`: null reads as absent (valid);
  otherwise the wrapped type is read into a fresh default and wrapped only
  on success.
* `.vec`    — meta.h:463-488 `fromVector` (loop in `fromSeq`).
* `.smap`   — meta.h:490-517 `fromMap` (loop in `fromMapKeys`).
* `.pair`   — meta.h:410-445 `fromPair`: both positions are read and both
  results merged with `"[0]"`/`"[1]"` prefixes; when both are valid the
  result is reset to valid/empty.  (The source's `!kNode || !vNode` branch
  is dead: `YamlNode::at(size_t)` never returns null.)
* `.record` — meta.h:745-768 `fromStruct` (loop in `fromFields`).

The C++ mutates `obj` in place; here the post-state of the object is the
first component of the returned pair. -/
def fromNode : Shape → Value → Node → Value × VResult
  | .int, obj, n =>
    match n.asInt with
    | none => (obj, err1 "" "Invalid integer")
    | some i => (.vint i, okR)
  | .double, obj, n =>
    match n.asInt with
    | none => (obj, okR)
    | some i => (.vdouble (i : Rat), okR)
  | .str, obj, n =>
    match n.asString with
    | none => (obj, err1 "" "Invalid string")
    | some s => (.vstr s, okR)
  | .bool, obj, n =>
    match n.asBool with
    | none => (obj, err1 "" "Invalid boolean")
    | some b => (.vbool b, okR)
  | .enum m, obj, n =>
    match n.asString with
    | none => (obj, err1 "" "Invalid enum")
    | some s =>
      match stringToEnum m s with
      | none => (obj, err1 "" ("Unknown enum value: " ++ s))
      | some k => (.venum k, okR)
  | .opt s, obj, n =>
    if n.isNull then (.vnone, okR)
    else
      let p := fromNode s (defaultValue s) n
      if p.2.valid then (.vsome p.1, p.2) else (obj, p.2)
  | .vec s, obj, n =>
    match n with
    | .seq xs =>
      let p := seqLoop (fun x => fromNode s (defaultValue s) x) 0 xs
      (.vvec p.1, p.2)
    | _ => (obj, err1 "" "Expected sequence")
  | .smap s, obj, n =>
    match n with
    | .map _ =>
      let p := mapLoopH (fun x => fromNode s (defaultValue s) x) n.keys n []
      (.vmap p.1, p.2)
    | _ => (obj, err1 "" "Expected map")
  | .pair a b, obj, n =>
    match n with
    | .seq [n0, n1] =>
      let cur := match obj with
        | .vpair x y => (x, y)
        | _ => (defaultValue a, defaultValue b)
      let kp := fromNode a cur.1 n0
      let vp := fromNode b cur.2 n1
      (.vpair kp.1 vp.1,
        if kp.2.valid && vp.2.valid then okR
        else mergeR (prefixedR "[0]" kp.2) (prefixedR "[1]" vp.2))
    | _ =>
      (obj, err1 "" ("Expected sequence of 2 elements, got size=" ++ toString n.size))
  | .record fs, obj, n =>
    let vals := match obj with
      | .vrec vs => vs
      | _ => defaultFields fs
    let p := fromFields fs vals n
    (.vrec p.1, p.2)

/-- The field loop of `meta::fromStruct` (meta.h:748-765): for each
registered field, an absent key emits `"Missing required field"` at the
field's name when the field is required and is silent otherwise; a present
key is read into the field's current slot and failures are prefixed with the
field name.  Every field is attempted. -/
def fromFields : FieldList → List Value → Node → List Value × VResult
  | .nil, _, _ => ([], okR)
  | .cons name rq s rest, vals, n =>
    let p : Value × VResult :=
      match n.atKeyH name with
      | none =>
        (vals.headD (defaultValue s),
          if rq = .required then err1 name "Missing required field" else okR)
      | some fn =>
        let q := fromNode s (vals.headD (defaultValue s)) fn
        (q.1, prefixedR name q.2)
    let rest0 := fromFields rest vals.tail n
    (p.1 :: rest0.1, mergeR p.2 rest0.2)

end

/-- `meta::reifyFromYaml(const YAML::Node&)` (meta.h:924-941): read a tree
into a default-initialized object; a valid result carries the object,
an invalid one carries no value. -/
def reifyNode (s : Shape) (n : Node) : Option Value × VResult :=
  let p := fromNode s (defaultValue s) n
  if p.2.valid then (some p.1, p.2) else (none, p.2)

/-- `meta::reifyFromYaml(const std::string&)` (meta.h:904-922).  The external
`YAML::Load` is abstracted as a function producing either a tree or a
failure string (the `what()` of the exception it would throw); the `catch`
block turns the latter into a single error at path `"yaml"`. -/
def reifyFromYaml (load : String → Except String Node) (s : Shape)
    (text : String) : Option Value × VResult :=
  match load text with
  | .error e => (none, err1 "yaml" e)
  | .ok n => reifyNode s n

end MetaH

namespace MetaYaml

mutual

/-- The deserialization dispatcher of `meta_yaml.h`, one clause per
`meta::from` overload:

* `.int`    — meta_yaml.h:167-177 (`"Invalid integer"`).
* `.double` — meta_yaml.h:179-190: `asDouble`, falling back to `asInt`
  (widening); failure emits `"Invalid double"`.
* `.str`    — meta_yaml.h:192-202, `.bool` — meta_yaml.h:204-214.
* `.enum`   — meta_yaml.h:229-247: a non-text node emits `"Invalid enum.
  Valid values are: <list>"`; an unregistered name emits `"Unknown enum
  value <q>. Valid values are: <list>"` with the quoted, joined table.
* `.opt`    — meta_yaml.h:296-307.
* `.vec`    — meta_yaml.h:250-270 (loop in `fromSeq`).
* `.smap`   — meta_yaml.h:273-293 (loop in `fromMapKeys`; `at(k)` is the
  total accessor, there is no null check here).
* `.pair`   — meta_yaml.h:310-322: `if (!kResult.valid) result = kResult;
  if (!vResult.valid) result = vResult;` — the second failing position
  *replaces* the first's result, and no position prefix is added.
* `.record` — meta_yaml.h:349-377 (loop in `fromFields`): absence of a field
  is detected with `fieldNode.isNull()`, so it fires on an explicit null
  value but not on a truly absent key, whose zombie node flows into the
  field's type-level read instead. -/
def fromNode : Shape → Value → Node → Value × VResult
  | .int, obj, n =>
    match n.asInt with
    | none => (obj, err1 "" "Invalid integer")
    | some i => (.vint i, okR)
  | .double, obj, n =>
    match n.asDouble.orElse (fun _ => n.asInt.map (fun i => (i : Rat))) with
    | none => (obj, err1 "" "Invalid double")
    | some q => (.vdouble q, okR)
  | .str, obj, n =>
    match n.asString with
    | none => (obj, err1 "" "Invalid string")
    | some s => (.vstr s, okR)
  | .bool, obj, n =>
    match n.asBool with
    | none => (obj, err1 "" "Invalid boolean")
    | some b => (.vbool b, okR)
  | .enum m, obj, n =>
    match n.asString with
    | none => (obj, err1 "" ("Invalid enum. Valid values are: " ++ getValidValues m))
    | some s =>
      match stringToEnum m s with
      | none =>
        (obj, err1 "" ("Unknown enum value " ++ quoteS s ++
          ". Valid values are: " ++ getValidValues m))
      | some k => (.venum k, okR)
  | .opt s, obj, n =>
    if n.isNull then (.vnone, okR)
    else
      let p := fromNode s (defaultValue s) n
      if p.2.valid then (.vsome p.1, p.2) else (obj, p.2)
  | .vec s, obj, n =>
    match n with
    | .seq xs =>
      let p := seqLoop (fun x => fromNode s (defaultValue s) x) 0 xs
      (.vvec p.1, p.2)
    | _ => (obj, err1 "" "Expected sequence")
  | .smap s, obj, n =>
    match n with
    | .map _ =>
      let p := mapLoopY (fun x => fromNode s (defaultValue s) x) n.keys n []
      (.vmap p.1, p.2)
    | _ => (obj, err1 "" "Expected map")
  | .pair a b, obj, n =>
    match n with
    | .seq [n0, n1] =>
      let cur := match obj with
        | .vpair x y => (x, y)
        | _ => (defaultValue a, defaultValue b)
      let kp := fromNode a cur.1 n0
      let vp := fromNode b cur.2 n1
      (.vpair kp.1 vp.1,
        if vp.2.valid = false then vp.2
        else if kp.2.valid = false then kp.2
        else okR)
    | _ => (obj, err1 "" "Expected sequence of 2 elements")
  | .record fs, obj, n =>
    let vals := match obj with
      | .vrec vs => vs
      | _ => defaultFields fs
    let p := fromFields fs vals n
    (.vrec p.1, p.2)

/-- The field loop of the struct overload (meta_yaml.h:353-370): the
field node is fetched with the total accessor and absence is tested with
`isNull()`. -/
def fromFields : FieldList → List Value → Node → List Value × VResult
  | .nil, _, _ => ([], okR)
  | .cons name rq s rest, vals, n =>
    let fn := n.atKeyY name
    let p : Value × VResult :=
      if fn.isNull then
        (vals.headD (defaultValue s),
          if rq = .required then err1 name "Missing required field" else okR)
      else
        let q := fromNode s (vals.headD (defaultValue s)) fn
        (q.1, prefixedR name q.2)
    let rest0 := fromFields rest vals.tail n
    (p.1 :: rest0.1, mergeR p.2 rest0.2)

end

/-- `meta::fromYaml` (meta_yaml.h:491-505), with the external `YAML::Load`
abstracted exactly as in `MetaH.reifyFromYaml`. -/
def fromYaml (load : String → Except String Node) (s : Shape)
    (text : String) : Option Value × VResult :=
  match load text with
  | .error e => (none, err1 "yaml" e)
  | .ok n =>
    let p := fromNode s (defaultValue s) n
    if p.2.valid then (some p.1, p.2) else (none, p.2)

end MetaYaml

/-- Comma-joining loop used by the `Whitelist` diagnostic (field.h:179-188):
`if (!first) oss << ", "; oss << allowed;`. -/
def joinComma : List String → String
  | [] => ""
  | s :: rest => rest.foldl (fun acc t => acc ++ ", " ++ t) s

/-- `meta::BoundsCheck<Min, Max>::validate` (field.h:132-148), instantiated
at an integral member type: `none` on success, the produced error string on
failure. -/
def boundsCheckValidate (mn mx v : Int) : Option String :=
  if v < mn || v > mx then
    some ("Value " ++ toString v ++ " out of bounds [" ++ toString mn ++
      ", " ++ toString mx ++ "]")
  else none

/-- `meta::StringLength<Min, Max>::validate` (field.h:150-166).  C++
measures `std::string::length()` in bytes; the model measures characters
(identical on ASCII data). -/
def stringLengthValidate (mn mx : Nat) (s : String) : Option String :=
  if s.length < mn || s.length > mx then
    some ("String length " ++ toString s.length ++ " out of bounds [" ++
      toString mn ++ ", " ++ toString mx ++ "]")
  else none

/-- `meta::Whitelist<AllowedValues>::validate` (field.h:168-192),
instantiated at an integral member type: linear containment scan, and on
failure the diagnostic listing the whole allowed set in braces. -/
def whitelistValidate (allowed : List Int) (v : Int) : Option String :=
  if allowed.contains v then none
  else
    some ("Value not in whitelist: \x7b" ++ joinComma (allowed.map toString) ++ "\x7d")

/-- The closed set of constraint attributes of field.h that the
specification's record deserializer consults (`BoundsCheck`, `StringLength`,
`Whitelist`), with integral bounds/whitelists. -/
inductive Vattr where
  | bounds (mn mx : Int)
  | strLen (mn mx : Nat)
  | wlist (allowed : List Int)
deriving DecidableEq, Repr

/-- Dispatch of one constraint attribute on an already-read field value via
the field.h `validate` functions.  The C++ instantiates `validate` at the
field's member type, so a kind/type mismatch is a compile-time error there;
such combinations validate vacuously here. -/
def runVattr : Vattr → Value → Option String
  | .bounds mn mx, .vint i => boundsCheckValidate mn mx i
  | .strLen mn mx, .vstr s => stringLengthValidate mn mx s
  | .wlist allowed, .vint i => whitelistValidate allowed i
  | _, _ => none

/-- The per-field attribute pass: every attached attribute is invoked on the
read value and each failure appends one error at the field's name. -/
def runVattrs (name : String) (attrs : List Vattr) (v : Value) : VResult :=
  attrs.foldl
    (fun acc a =>
      match runVattr a v with
      | none => acc
      | some msg => acc.addError name msg)
    okR

/-- One field of the attribute-carrying metadata model of field.h
(`meta::Field<MemberPtr, Attrs...>`, field.h:259-353): a name, the
requirement derived from the member type, the member shape, and the attached
constraint attributes. -/
structure FieldV where
  name : String
  rq : Requirement
  s : Shape
  attrs : List Vattr

/-- Modelled from the spec: the record deserializer that invokes
constrained-attribute validators.  The repository declares the validators
(field.h:132-192) and its examples (`example_white_attributes.cpp`,
expecting `Value not in whitelist: ...` errors from `reifyFromYaml`) rely on
a record deserializer that consults them, but the `fromStruct` present in
src/meta.h reads fields without consulting attributes and the meta.h `Field`
carries none — the invoking deserializer itself is missing from src/.
Per the spec (§4.1): after a successful type-level read of a field, any
attached `BoundsCheck` / `StringLength` / `Whitelist` validators are
invoked; a validator failure appends an error at that field's path without
discarding the already-read value; all other behavior is `fromStruct`'s
(absent required key: `"Missing required field"`; absent optional key:
silent; read failures prefixed with the field name). -/
def fromStructV : List FieldV → Node → List Value × VResult
  | [], _ => ([], okR)
  | f :: rest, n =>
    let p : Value × VResult :=
      match n.atKeyH f.name with
      | none =>
        (defaultValue f.s,
          if f.rq = .required then err1 f.name "Missing required field" else okR)
      | some fn =>
        let q := MetaH.fromNode f.s (defaultValue f.s) fn
        if q.2.valid then (q.1, runVattrs f.name f.attrs q.1)
        else (q.1, prefixedR f.name q.2)
    let rest0 := fromStructV rest n
    (p.1 :: rest0.1, mergeR p.2 rest0.2)

mutual

/-- Shape well-formedness assumed of a "supported record type": every
registered enum table is bidirectional (no duplicate values, no duplicate
names) and every record's field names are distinct.  Both are invariants the
source takes for granted (the enum registry is described as a bidirectional
table; duplicate field names would make two fields read the same key). -/
def wfShape : Shape → Bool
  | .int => true
  | .double => true
  | .bool => true
  | .str => true
  | .opt s => wfShape s
  | .vec s => wfShape s
  | .smap s => wfShape s
  | .pair a b => wfShape a && wfShape b
  | .enum m => decide (m.map Prod.fst).Nodup && decide (m.map Prod.snd).Nodup
  | .record fs => decide (fieldNames fs).Nodup && wfFields fs

def wfFields : FieldList → Bool
  | .nil => true
  | .cons _ _ s rest => wfShape s && wfFields rest

end

mutual

/-- Canonical, fully-populated values of a shape: the typing discipline the
C++ static types enforce, plus (a) every optional holds a value ("populated
in all fields" of the round-trip property), (b) every enum value is
registered, and (c) every `std::map` value is in its class invariant —
strictly increasing keys. -/
def canonV : Shape → Value → Bool
  | .int, .vint _ => true
  | .double, .vdouble _ => true
  | .bool, .vbool _ => true
  | .str, .vstr _ => true
  | .opt s, .vsome v => canonV s v
  | .vec s, .vvec xs => xs.all (fun v => canonV s v)
  | .smap s, .vmap kvs =>
    decide (kvs.Pairwise (fun a b => a.1 < b.1)) && kvs.all (fun kv => canonV s kv.2)
  | .pair a b, .vpair va vb => canonV a va && canonV b vb
  | .enum m, .venum k => m.any (fun p => p.1 == k)
  | .record fs, .vrec vs => canonFields fs vs
  | _, _ => false

def canonFields : FieldList → List Value → Bool
  | .nil, [] => true
  | .cons _ _ s rest, v :: vs => canonV s v && canonFields rest vs
  | .nil, _ :: _ => false
  | .cons _ _ _ _, [] => false

end

mutual

/-- Shapes that avoid the `double` primitive anywhere (the shapes on which
meta.h's silent floating-point read cannot strike). -/
def noDouble : Shape → Bool
  | .int => true
  | .double => false
  | .bool => true
  | .str => true
  | .opt s => noDouble s
  | .vec s => noDouble s
  | .smap s => noDouble s
  | .pair a b => noDouble a && noDouble b
  | .enum _ => true
  | .record fs => noDoubleFields fs

def noDoubleFields : FieldList → Bool
  | .nil => true
  | .cons _ _ s rest => noDouble s && noDoubleFields rest

end

/-- Substring occurrence, on the underlying character lists. -/
def occursIn (needle hay : String) : Prop := needle.data <:+: hay.data

instance (needle hay : String) : Decidable (occursIn needle hay) :=
  List.decidableInfix needle.data hay.data

/-- Every registered field is present in the node, holding the rendered tree
of the corresponding value. -/
def fieldsPresent : FieldList → List Value → Node → Prop
  | .nil, _, _ => True
  | .cons name _ s rest, vals, n =>
    n.atKeyH name = some (toNode s (vals.headD (defaultValue s))) ∧
      fieldsPresent rest vals.tail n

/-! ## Concrete fixtures used by the claim evaluations and witnesses -/

/-- A record with one required `int` field and one optional `string` field
(the `Person`-style fixtures of the repository's tests). -/
def fsC2 : FieldList :=
  .cons "age" .required .int (.cons "nick" .optionalF (.opt .str) .nil)

/-- The three-value `Color` enum registered in
`src/yaml-only/test_enum_errors.cpp`. -/
def rgbEnum : List (Nat × String) := [(0, "red"), (1, "green"), (2, "blue")]

/-- A record with a single required `double` field. -/
def sC1 : Shape := .record (.cons "d" .required .double .nil)

/-- The rational 5/2, given in lowest terms (a non-integral double). -/
def q52 : Rat := ⟨5, 2, by norm_num, by norm_num [Nat.Coprime]⟩

/-- The rational 7/2, given in lowest terms. -/
def q72 : Rat := ⟨7, 2, by norm_num, by norm_num [Nat.Coprime]⟩

/-- A fully-populated value of `sC1` holding the non-integral double 2.5. -/
def vC1 : Value := .vrec [.vdouble q52]

/-- A record exercising every supported shape (including `double`). -/
def sW1 : Shape :=
  .record (.cons "name" .required .str (.cons "score" .required .double
    (.cons "color" .required (.enum rgbEnum) (.cons "nick" .optionalF (.opt .str)
      (.cons "tags" .required (.vec .str) (.cons "attrs" .required (.smap .int)
        (.cons "loc" .required (.pair .int .str) .nil)))))))

/-- A fully-populated value of `sW1`. -/
def vW1 : Value :=
  .vrec [.vstr "Ada", .vdouble q72, .venum 2, .vsome (.vstr "ad"),
    .vvec [.vstr "a", .vstr "b"], .vmap [("x", .vint 1)],
    .vpair (.vint 9) (.vstr "p")]

/-- A double-free record exercising the remaining shapes. -/
def sW2 : Shape :=
  .record (.cons "name" .required .str (.cons "color" .required (.enum rgbEnum)
    (.cons "nick" .optionalF (.opt .str) (.cons "tags" .required (.vec .str)
      (.cons "attrs" .required (.smap .int)
        (.cons "loc" .required (.pair .int .str) .nil))))))

/-- A fully-populated value of `sW2`. -/
def vW2 : Value :=
  .vrec [.vstr "Bob", .venum 0, .vsome (.vstr "bb"), .vvec [.vstr "t"],
    .vmap [("a", .vint 3)], .vpair (.vint 1) (.vstr "q")]

/-- The field of `example_white_attributes.cpp`: an `int` `"port"`
whitelisted to `{80, 443, 8080, 8443}`. -/
def portField : FieldV := ⟨"port", .required, .int, [.wlist [80, 443, 8080, 8443]]⟩

/-! ## Basic lemmas about `VResult` and the merge combinators -/

@[simp] theorem okR_valid : okR.valid = true := rfl

@[simp] theorem okR_errors : okR.errors = [] := rfl

@[simp] theorem err1_valid (f m : String) : (err1 f m).valid = false := rfl

@[simp] theorem err1_errors (f m : String) : (err1 f m).errors = [(f, m)] := rfl

theorem VResult.eta (r : VResult) : r = ⟨r.valid, r.errors⟩ := rfl

theorem okR_inv : okR.inv := rfl

theorem err1_inv (f m : String) : (err1 f m).inv := rfl

theorem addError_inv (r : VResult) (f m : String) : (r.addError f m).inv := by
  simp [VResult.addError, VResult.inv]

theorem isEmpty_append (a b : List (String × String)) :
    (a ++ b).isEmpty = (a.isEmpty && b.isEmpty) := by
  cases a <;> cases b <;> simp [List.isEmpty]

theorem isEmpty_map (f : String × String → String × String)
    (l : List (String × String)) : (l.map f).isEmpty = l.isEmpty := by
  cases l <;> simp [List.isEmpty]

theorem mergeR_inv {a b : VResult} (ha : a.inv) (hb : b.inv) : (mergeR a b).inv := by
  simp only [VResult.inv] at *
  simp [mergeR, ha, hb, isEmpty_append]

@[simp] theorem mergeR_okR_left (r : VResult) : mergeR okR r = r := by
  cases r; simp [mergeR, okR]

@[simp] theorem mergeR_okR_right (r : VResult) : mergeR r okR = r := by
  cases r; simp [mergeR, okR]

theorem foldl_addError (f : String → String) (l : List (String × String)) :
    ∀ acc : VResult,
      l.foldl (fun a fe => a.addError (f fe.1) fe.2) acc =
        ⟨acc.valid && l.isEmpty, acc.errors ++ l.map (fun fe => (f fe.1, fe.2))⟩ := by
  induction l with
  | nil => intro acc; simp
  | cons fe l ih =>
    intro acc
    rw [List.foldl_cons, ih]
    simp [VResult.addError, List.isEmpty]

/-- The errors contributed by the ubiquitous
`if (!r.valid) for (...) addError(prefix ⊕ f, e)` pattern, for a result
satisfying the engine invariant: exactly `r`'s errors, paths prefixed. -/
theorem prefixedR_eq {r : VResult} (p : String) (h : r.inv) :
    prefixedR p r = ⟨r.valid, r.errors.map (fun fe => (joinPath p fe.1, fe.2))⟩ := by
  simp only [VResult.inv] at h
  by_cases hv : r.valid
  · have : r.errors = [] := by
      rw [hv] at h; exact List.isEmpty_iff.mp h.symm
    simp [prefixedR, hv, this, okR]
  · simp only [prefixedR, hv, if_false, foldl_addError]
    simp only [Bool.not_eq_true] at hv
    rw [hv] at h
    simp [okR, ← h, hv]

theorem prefixedR_inv (p : String) (r : VResult) : (prefixedR p r).inv := by
  by_cases hv : r.valid
  · simp [prefixedR, hv, okR_inv]
  · simp only [prefixedR, hv, if_false, foldl_addError]
    simp [VResult.inv, okR, isEmpty_map]

@[simp] theorem prefixedR_okR (p : String) : prefixedR p okR = okR := by
  simp [prefixedR, okR]

theorem prefixedR_valid (p : String) {r : VResult} (h : r.valid = true) :
    prefixedR p r = okR := by
  simp [prefixedR, h]

/-! ## The result invariant `valid == errors.is_empty()` holds everywhere -/

theorem seqLoop_inv (read : Node → Value × VResult) : ∀ (i : Nat) (xs : List Node),
    ((seqLoop read i xs).2).inv := by
  intro i xs
  induction xs generalizing i with
  | nil => exact okR_inv
  | cons x xs ih =>
    simp only [seqLoop]
    split
    · exact ih (i + 1)
    · exact mergeR_inv (prefixedR_inv _ _) (ih (i + 1))

theorem mapLoopH_inv (read : Node → Value × VResult) : ∀ (ks : List String) (n : Node)
    (acc : List (String × Value)), ((mapLoopH read ks n acc).2).inv := by
  intro ks n acc
  induction ks generalizing acc with
  | nil => exact okR_inv
  | cons k ks ih =>
    simp only [mapLoopH]
    split
    · exact ih acc
    · split
      · exact ih _
      · exact mergeR_inv (prefixedR_inv _ _) (ih acc)

theorem mapLoopY_inv (read : Node → Value × VResult) : ∀ (ks : List String) (n : Node)
    (acc : List (String × Value)), ((mapLoopY read ks n acc).2).inv := by
  intro ks n acc
  induction ks generalizing acc with
  | nil => exact okR_inv
  | cons k ks ih =>
    simp only [mapLoopY]
    split
    · exact ih _
    · exact mergeR_inv (prefixedR_inv _ _) (ih acc)

mutual

theorem invH_node : ∀ (s : Shape) (obj : Value) (n : Node),
    ((MetaH.fromNode s obj n).2).inv
  | .int, obj, n => by
    simp only [MetaH.fromNode]
    rcases n.asInt with _ | i
    · exact err1_inv _ _
    · exact okR_inv
  | .double, obj, n => by
    simp only [MetaH.fromNode]
    rcases n.asInt with _ | i
    · exact okR_inv
    · exact okR_inv
  | .str, obj, n => by
    simp only [MetaH.fromNode]
    rcases n.asString with _ | s
    · exact err1_inv _ _
    · exact okR_inv
  | .bool, obj, n => by
    simp only [MetaH.fromNode]
    rcases n.asBool with _ | b
    · exact err1_inv _ _
    · exact okR_inv
  | .enum m, obj, n => by
    rcases hn : n.asString with _ | s <;> simp only [MetaH.fromNode, hn]
    · exact err1_inv _ _
    · rcases hk : stringToEnum m s with _ | k <;> simp only [hk]
      · exact err1_inv _ _
      · exact okR_inv
  | .opt s, obj, n => by
    simp only [MetaH.fromNode]
    split
    · exact okR_inv
    · split
      · exact invH_node s (defaultValue s) n
      · exact invH_node s (defaultValue s) n
  | .vec s, obj, n => by
    cases n with
    | seq xs => exact seqLoop_inv _ 0 xs
    | scalar sc => exact err1_inv _ _
    | map kvs => exact err1_inv _ _
    | null => exact err1_inv _ _
    | undefined => exact err1_inv _ _
  | .smap s, obj, n => by
    cases n with
    | map kvs =>
      exact mapLoopH_inv _ _ _ _
    | scalar sc => exact err1_inv _ _
    | seq xs => exact err1_inv _ _
    | null => exact err1_inv _ _
    | undefined => exact err1_inv _ _
  | .pair a b, obj, n => by
    cases n with
    | seq xs =>
      match xs with
      | [] => exact err1_inv _ _
      | [x] => exact err1_inv _ _
      | [n0, n1] =>
        simp only [MetaH.fromNode]
        split
        · exact okR_inv
        · exact mergeR_inv (prefixedR_inv _ _) (prefixedR_inv _ _)
      | x :: y :: z :: r => exact err1_inv _ _
    | scalar sc => exact err1_inv _ _
    | map kvs => exact err1_inv _ _
    | null => exact err1_inv _ _
    | undefined => exact err1_inv _ _
  | .record fs, obj, n => by
    exact invH_fields fs _ n

theorem invH_fields : ∀ (fs : FieldList) (vals : List Value) (n : Node),
    ((MetaH.fromFields fs vals n).2).inv
  | .nil, vals, n => okR_inv
  | .cons name rq s rest, vals, n => by
    simp only [MetaH.fromFields]
    refine mergeR_inv ?_ (invH_fields rest vals.tail n)
    rcases n.atKeyH name with _ | fn
    · show (if rq = Requirement.required then err1 name "Missing required field" else okR).inv
      split
      · exact err1_inv _ _
      · exact okR_inv
    · exact prefixedR_inv _ _

end

mutual

theorem invY_node : ∀ (s : Shape) (obj : Value) (n : Node),
    ((MetaYaml.fromNode s obj n).2).inv
  | .int, obj, n => by
    simp only [MetaYaml.fromNode]
    rcases n.asInt with _ | i
    · exact err1_inv _ _
    · exact okR_inv
  | .double, obj, n => by
    simp only [MetaYaml.fromNode]
    rcases n.asDouble.orElse (fun _ => n.asInt.map (fun i => (i : Rat))) with _ | q
    · exact err1_inv _ _
    · exact okR_inv
  | .str, obj, n => by
    simp only [MetaYaml.fromNode]
    rcases n.asString with _ | s
    · exact err1_inv _ _
    · exact okR_inv
  | .bool, obj, n => by
    simp only [MetaYaml.fromNode]
    rcases n.asBool with _ | b
    · exact err1_inv _ _
    · exact okR_inv
  | .enum m, obj, n => by
    rcases hn : n.asString with _ | s <;> simp only [MetaYaml.fromNode, hn]
    · exact err1_inv _ _
    · rcases hk : stringToEnum m s with _ | k <;> simp only [hk]
      · exact err1_inv _ _
      · exact okR_inv
  | .opt s, obj, n => by
    simp only [MetaYaml.fromNode]
    split
    · exact okR_inv
    · split
      · exact invY_node s (defaultValue s) n
      · exact invY_node s (defaultValue s) n
  | .vec s, obj, n => by
    cases n with
    | seq xs => exact seqLoop_inv _ 0 xs
    | scalar sc => exact err1_inv _ _
    | map kvs => exact err1_inv _ _
    | null => exact err1_inv _ _
    | undefined => exact err1_inv _ _
  | .smap s, obj, n => by
    cases n with
    | map kvs =>
      exact mapLoopY_inv _ _ _ _
    | scalar sc => exact err1_inv _ _
    | seq xs => exact err1_inv _ _
    | null => exact err1_inv _ _
    | undefined => exact err1_inv _ _
  | .pair a b, obj, n => by
    cases n with
    | seq xs =>
      match xs with
      | [] => exact err1_inv _ _
      | [x] => exact err1_inv _ _
      | [n0, n1] =>
        simp only [MetaYaml.fromNode]
        split
        · exact invY_node b _ n1
        · split
          · exact invY_node a _ n0
          · exact okR_inv
      | x :: y :: z :: r => exact err1_inv _ _
    | scalar sc => exact err1_inv _ _
    | map kvs => exact err1_inv _ _
    | null => exact err1_inv _ _
    | undefined => exact err1_inv _ _
  | .record fs, obj, n => by
    exact invY_fields fs _ n

theorem invY_fields : ∀ (fs : FieldList) (vals : List Value) (n : Node),
    ((MetaYaml.fromFields fs vals n).2).inv
  | .nil, vals, n => okR_inv
  | .cons name rq s rest, vals, n => by
    simp only [MetaYaml.fromFields]
    refine mergeR_inv ?_ (invY_fields rest vals.tail n)
    by_cases hnull : (n.atKeyY name).isNull
    · simp only [hnull, if_true]
      show (if rq = Requirement.required then err1 name "Missing required field" else okR).inv
      split
      · exact err1_inv _ _
      · exact okR_inv
    · simp only [hnull, if_false]
      exact prefixedR_inv _ _

end
/-! ## Round-trip helper lemmas -/

theorem find?_append {α : Type} (p : α → Bool) :
    ∀ (l1 l2 : List α), (l1 ++ l2).find? p = ((l1.find? p).orElse (fun _ => l2.find? p)) := by
  intro l1 l2
  induction l1 with
  | nil => simp [Option.orElse]
  | cons x l1 ih =>
    by_cases hx : p x <;> simp [List.find?, hx, ih, Option.orElse]

theorem find_reverse_fst {m : List (Nat × String)} {k : Nat} {s : String}
    (hnd : (m.map Prod.fst).Nodup) (hmem : (k, s) ∈ m) :
    m.reverse.find? (fun p => p.1 == k) = some (k, s) := by
  induction m with
  | nil => cases hmem
  | cons kv m ih =>
    simp only [List.map_cons, List.nodup_cons] at hnd
    rcases List.mem_cons.mp hmem with heq | hmem2
    · subst heq
      have hnone : m.reverse.find? (fun p => p.1 == k) = none := by
        rw [List.find?_eq_none]
        intro x hx
        simp only [beq_iff_eq]
        intro hcontra
        apply hnd.1
        have hin : x.1 ∈ m.map Prod.fst :=
          List.mem_map_of_mem Prod.fst (List.mem_reverse.mp hx)
        rwa [hcontra] at hin
      simp [find?_append, hnone, Option.orElse]
    · have := ih hnd.2 hmem2
      simp [find?_append, this, Option.orElse]

theorem find_reverse_snd {m : List (Nat × String)} {k : Nat} {s : String}
    (hnd : (m.map Prod.snd).Nodup) (hmem : (k, s) ∈ m) :
    m.reverse.find? (fun p => p.2 == s) = some (k, s) := by
  induction m with
  | nil => cases hmem
  | cons kv m ih =>
    simp only [List.map_cons, List.nodup_cons] at hnd
    rcases List.mem_cons.mp hmem with heq | hmem2
    · subst heq
      have hnone : m.reverse.find? (fun p => p.2 == s) = none := by
        rw [List.find?_eq_none]
        intro x hx
        simp only [beq_iff_eq]
        intro hcontra
        apply hnd.1
        have hin : x.2 ∈ m.map Prod.snd :=
          List.mem_map_of_mem Prod.snd (List.mem_reverse.mp hx)
        rwa [hcontra] at hin
      simp [find?_append, hnone, Option.orElse]
    · have := ih hnd.2 hmem2
      simp [find?_append, this, Option.orElse]

/-- A bidirectional enum table round-trips each registered value through its
registered name. -/
theorem enum_rt {m : List (Nat × String)} {k : Nat} {s : String}
    (hf : (m.map Prod.fst).Nodup) (hs : (m.map Prod.snd).Nodup)
    (hmem : (k, s) ∈ m) :
    enumToString m k = s ∧ stringToEnum m s = some k := by
  constructor
  · simp [enumToString, find_reverse_fst hf hmem]
  · simp [stringToEnum, find_reverse_snd hs hmem]

/-- The rendered tree of a canonical (fully populated) value is never a
null node: only an absent optional renders as null, and canonical values
have none. -/
theorem toNode_notNull : ∀ (s : Shape) (v : Value), canonV s v = true →
    (toNode s v).isNull = false
  | .int, v, h => by cases v <;> simp_all [canonV, toNode, Node.isNull]
  | .double, v, h => by cases v <;> simp_all [canonV, toNode, Node.isNull]
  | .bool, v, h => by cases v <;> simp_all [canonV, toNode, Node.isNull]
  | .str, v, h => by cases v <;> simp_all [canonV, toNode, Node.isNull]
  | .opt s, v, h => by
    cases v <;> simp_all [canonV, toNode, Node.isNull]
    exact toNode_notNull s _ h
  | .vec s, v, h => by cases v <;> simp_all [canonV, toNode, Node.isNull]
  | .smap s, v, h => by cases v <;> simp_all [canonV, toNode, Node.isNull]
  | .pair a b, v, h => by cases v <;> simp_all [canonV, toNode, Node.isNull]
  | .enum m, v, h => by cases v <;> simp_all [canonV, toNode, Node.isNull]
  | .record fs, v, h => by cases v <;> simp_all [canonV, toNode, Node.isNull]

/-- Inserting a key greater than everything in the map appends. -/
theorem mapInsert_append : ∀ (acc : List (String × Value)) (k : String) (v : Value),
    (∀ kv ∈ acc, kv.1 < k) → mapInsert acc k v = acc ++ [(k, v)] := by
  intro acc k v h
  induction acc with
  | nil => rfl
  | cons kv0 acc ih =>
    have h0 : kv0.1 < k := h kv0 (List.mem_cons_self _ _)
    have h1 : ¬(k < kv0.1) := not_lt_of_gt h0
    have h2 : ¬(k = kv0.1) := fun he => absurd h0 (by simp [he])
    cases kv0 with
    | mk k0 v0 =>
      simp only [mapInsert, if_neg h1, if_neg h2, List.cons_append]
      rw [ih (fun kv hkv => h kv (List.mem_cons_of_mem _ hkv))]

/-- First-match lookup in a value-mapped association list with distinct
keys finds the mapped image. -/
theorem lookup_map_entries (f : Value → Node) :
    ∀ (kvs : List (String × Value)) (k : String) (v : Value),
    (kvs.map Prod.fst).Nodup → (k, v) ∈ kvs →
    (kvs.map (fun kv => (kv.1, f kv.2))).lookup k = some (f v) := by
  intro kvs
  induction kvs with
  | nil => intro k v _ hmem; cases hmem
  | cons kv0 kvs ih =>
    intro k v hnd hmem
    simp only [List.map_cons, List.nodup_cons] at hnd
    rcases List.mem_cons.mp hmem with heq | hmem2
    · subst heq
      simp [List.lookup]
    · have hne : k ≠ kv0.1 := by
        intro he
        exact hnd.1 (he ▸ List.mem_map_of_mem Prod.fst hmem2)
      have hbeq : (k == kv0.1) = false := by simp [hne]
      simp only [List.map_cons, List.lookup, hbeq]
      exact ih k v hnd.2 hmem2

/-- Sequence loop: when every rendered element reads back exactly, the loop
returns the original list with a valid result. -/
theorem seqLoop_map_ok (read : Node → Value × VResult) (f : Value → Node) :
    ∀ (xs : List Value), (∀ v ∈ xs, read (f v) = (v, okR)) →
    ∀ (i : Nat), seqLoop read i (xs.map f) = (xs, okR) := by
  intro xs
  induction xs with
  | nil => intro _ i; rfl
  | cons x xs ih =>
    intro h i
    have hx : read (f x) = (x, okR) := h x (List.mem_cons_self _ _)
    simp only [List.map_cons, seqLoop, hx, okR_valid, if_true]
    rw [ih (fun v hv => h v (List.mem_cons_of_mem _ hv)) (i + 1)]

/-- Map loop (meta_yaml.h flavor): reading the rendered entries of a
strictly key-sorted map in order reproduces the map. -/
theorem mapLoopY_ok (read : Node → Value × VResult) (n : Node) :
    ∀ (rest acc : List (String × Value)),
    (∀ kv ∈ rest, read (n.atKeyY kv.1) = (kv.2, okR)) →
    ((acc ++ rest).Pairwise (fun a b => a.1 < b.1)) →
    mapLoopY read (rest.map Prod.fst) n acc = (acc ++ rest, okR) := by
  intro rest
  induction rest with
  | nil => intro acc _ _; simp [mapLoopY]
  | cons kv rest ih =>
    intro acc hread hsort
    have hk : read (n.atKeyY kv.1) = (kv.2, okR) := hread kv (List.mem_cons_self _ _)
    have hlt : ∀ p ∈ acc, p.1 < kv.1 := by
      intro p hp
      have := (List.pairwise_append.mp hsort).2.2 p hp kv (List.mem_cons_self _ _)
      exact this
    simp only [List.map_cons, mapLoopY, hk, okR_valid, if_true]
    have hins : mapInsert acc kv.1 kv.2 = acc ++ [kv] := by
      have := mapInsert_append acc kv.1 kv.2 hlt
      simpa using this
    rw [hins]
    have hsort2 : ((acc ++ [kv]) ++ rest).Pairwise (fun a b => a.1 < b.1) := by
      simpa [List.append_assoc] using hsort
    rw [ih (acc ++ [kv]) (fun kv2 h2 => hread kv2 (List.mem_cons_of_mem _ h2)) hsort2]
    simp

/-- Map loop (meta.h flavor): same statement via the optional accessor. -/
theorem mapLoopH_ok (read : Node → Value × VResult) (n : Node) :
    ∀ (rest acc : List (String × Value)),
    (∀ kv ∈ rest, ∃ vn, n.atKeyH kv.1 = some vn ∧ read vn = (kv.2, okR)) →
    ((acc ++ rest).Pairwise (fun a b => a.1 < b.1)) →
    mapLoopH read (rest.map Prod.fst) n acc = (acc ++ rest, okR) := by
  intro rest
  induction rest with
  | nil => intro acc _ _; simp [mapLoopH]
  | cons kv rest ih =>
    intro acc hread hsort
    obtain ⟨vn, hat, hrd⟩ := hread kv (List.mem_cons_self _ _)
    have hlt : ∀ p ∈ acc, p.1 < kv.1 := by
      intro p hp
      exact (List.pairwise_append.mp hsort).2.2 p hp kv (List.mem_cons_self _ _)
    simp only [List.map_cons, mapLoopH, hat, hrd, okR_valid, if_true]
    have hins : mapInsert acc kv.1 kv.2 = acc ++ [kv] := by
      have := mapInsert_append acc kv.1 kv.2 hlt
      simpa using this
    rw [hins]
    have hsort2 : ((acc ++ [kv]) ++ rest).Pairwise (fun a b => a.1 < b.1) := by
      simpa [List.append_assoc] using hsort
    rw [ih (acc ++ [kv]) (fun kv2 h2 => hread kv2 (List.mem_cons_of_mem _ h2)) hsort2]
    simp

/-! ## Canonical-value inversion lemmas -/

theorem canon_int {v : Value} (h : canonV .int v = true) : ∃ i, v = .vint i := by
  cases v <;> simp_all [canonV]

theorem canon_double {v : Value} (h : canonV .double v = true) : ∃ q, v = .vdouble q := by
  cases v <;> simp_all [canonV]

theorem canon_bool {v : Value} (h : canonV .bool v = true) : ∃ b, v = .vbool b := by
  cases v <;> simp_all [canonV]

theorem canon_str {v : Value} (h : canonV .str v = true) : ∃ s, v = .vstr s := by
  cases v <;> simp_all [canonV]

theorem canon_opt {s : Shape} {v : Value} (h : canonV (.opt s) v = true) :
    ∃ w, v = .vsome w ∧ canonV s w = true := by
  cases v <;> simp_all [canonV]

theorem canon_vec {s : Shape} {v : Value} (h : canonV (.vec s) v = true) :
    ∃ xs, v = .vvec xs ∧ ∀ x ∈ xs, canonV s x = true := by
  cases v <;> simp_all [canonV, List.all_eq_true]

theorem canon_smap {s : Shape} {v : Value} (h : canonV (.smap s) v = true) :
    ∃ kvs, v = .vmap kvs ∧ kvs.Pairwise (fun a b => a.1 < b.1) ∧
      ∀ kv ∈ kvs, canonV s kv.2 = true := by
  cases v <;> simp_all [canonV, List.all_eq_true]
  exact fun a b hab => h.2 a b hab

theorem canon_pair {a b : Shape} {v : Value} (h : canonV (.pair a b) v = true) :
    ∃ va vb, v = .vpair va vb ∧ canonV a va = true ∧ canonV b vb = true := by
  cases v <;> simp_all [canonV]
  exact ⟨_, _, ⟨rfl, rfl⟩, h.1, h.2⟩

theorem canon_enum {m : List (Nat × String)} {v : Value}
    (h : canonV (.enum m) v = true) : ∃ k name, v = .venum k ∧ (k, name) ∈ m := by
  cases v <;> simp_all [canonV, List.any_eq_true]

theorem canon_rec {fs : FieldList} {v : Value} (h : canonV (.record fs) v = true) :
    ∃ vs, v = .vrec vs ∧ canonFields fs vs = true := by
  cases v <;> simp_all [canonV]

/-! ## Field presence in a rendered record node -/

theorem fieldsPresent_extend : ∀ (fs : FieldList) (vals : List Value)
    (kvs : List (String × Node)) (name0 : String) (x : Node),
    name0 ∉ fieldNames fs → fieldsPresent fs vals (.map kvs) →
    fieldsPresent fs vals (.map ((name0, x) :: kvs))
  | .nil, _, _, _, _, _, _ => trivial
  | .cons name rq s rest, vals, kvs, name0, x, hni, h => by
    simp only [fieldNames, List.mem_cons] at hni
    push_neg at hni
    refine ⟨?_, fieldsPresent_extend rest vals.tail kvs name0 x hni.2 h.2⟩
    have hbeq : (name == name0) = false := by
      simp only [beq_eq_false_iff_ne, ne_eq]
      exact fun he => hni.1 he.symm
    simpa [Node.atKeyH, List.lookup, hbeq] using h.1

theorem fieldsPresent_self : ∀ (fs : FieldList) (vs : List Value),
    (fieldNames fs).Nodup → fieldsPresent fs vs (.map (toNodeFields fs vs))
  | .nil, _, _ => trivial
  | .cons name rq s rest, vs, hnd => by
    simp only [fieldNames, List.nodup_cons] at hnd
    refine ⟨?_, ?_⟩
    · simp [Node.atKeyH, toNodeFields, List.lookup]
    · exact fieldsPresent_extend rest vs.tail (toNodeFields rest vs.tail) name _
        hnd.1 (fieldsPresent_self rest vs.tail hnd.2)

/-! ## Engine-level round trips -/

mutual

/-- Reading back the rendered tree of a canonical, fully-populated value
with the meta_yaml.h dispatcher reproduces the value exactly, with a valid
result, whatever the initial object state. -/
theorem rtY_node : ∀ (s : Shape) (v : Value), wfShape s = true → canonV s v = true →
    ∀ (obj : Value), MetaYaml.fromNode s obj (toNode s v) = (v, okR)
  | .int, v, _, hc, obj => by
    obtain ⟨i, rfl⟩ := canon_int hc
    rfl
  | .double, v, _, hc, obj => by
    obtain ⟨q, rfl⟩ := canon_double hc
    simp [toNode, MetaYaml.fromNode, Node.asDouble, Scalar.ofDouble, Option.orElse]
  | .bool, v, _, hc, obj => by
    obtain ⟨b, rfl⟩ := canon_bool hc
    rfl
  | .str, v, _, hc, obj => by
    obtain ⟨t, rfl⟩ := canon_str hc
    rfl
  | .enum m, v, hw, hc, obj => by
    obtain ⟨k, name, rfl, hmem⟩ := canon_enum hc
    simp only [wfShape, Bool.and_eq_true, decide_eq_true_eq] at hw
    have hrt := enum_rt hw.1 hw.2 hmem
    simp [toNode, MetaYaml.fromNode, Node.asString, Scalar.ofString, hrt.1, hrt.2]
  | .opt s, v, hw, hc, obj => by
    obtain ⟨w, rfl, hcw⟩ := canon_opt hc
    have hw' : wfShape s = true := by simpa [wfShape] using hw
    have hnn := toNode_notNull s w hcw
    have ih := rtY_node s w hw' hcw (defaultValue s)
    simp [toNode, MetaYaml.fromNode, hnn, ih]
  | .vec s, v, hw, hc, obj => by
    obtain ⟨xs, rfl, hall⟩ := canon_vec hc
    have hw' : wfShape s = true := by simpa [wfShape] using hw
    have hloop := seqLoop_map_ok (fun x => MetaYaml.fromNode s (defaultValue s) x)
      (fun w => toNode s w) xs
      (fun w hwmem => rtY_node s w hw' (hall w hwmem) (defaultValue s)) 0
    simp only [toNode, MetaYaml.fromNode]
    rw [hloop]
  | .smap s, v, hw, hc, obj => by
    obtain ⟨kvs, rfl, hsort, hall⟩ := canon_smap hc
    have hw' : wfShape s = true := by simpa [wfShape] using hw
    have hkeys : (kvs.map Prod.fst).Nodup := by
      have h1 : (kvs.map Prod.fst).Pairwise (fun a b => a < b) := by
        rw [List.pairwise_map]
        exact hsort
      exact h1.imp ne_of_lt
    have hread : ∀ kv ∈ kvs,
        MetaYaml.fromNode s (defaultValue s)
          ((Node.map (kvs.map (fun kv => (kv.1, toNode s kv.2)))).atKeyY kv.1) =
          (kv.2, okR) := by
      intro kv hkv
      have hlk := lookup_map_entries (toNode s) kvs kv.1 kv.2 hkeys
        (by rcases kv with ⟨k0, v0⟩; exact hkv)
      simp only [Node.atKeyY, Node.atKeyH, hlk, Option.getD_some]
      exact rtY_node s kv.2 hw' (hall kv hkv) (defaultValue s)
    have hloop := mapLoopY_ok (fun x => MetaYaml.fromNode s (defaultValue s) x)
      (Node.map (kvs.map (fun kv => (kv.1, toNode s kv.2)))) kvs [] hread
      (by simpa using hsort)
    have hfst : (kvs.map (fun kv => (kv.1, toNode s kv.2))).map Prod.fst = kvs.map Prod.fst := by
      simp [List.map_map]
    simp only [toNode, MetaYaml.fromNode, Node.keys]
    rw [hfst, hloop]
    simp
  | .pair a b, v, hw, hc, obj => by
    obtain ⟨va, vb, rfl, hca, hcb⟩ := canon_pair hc
    simp only [wfShape, Bool.and_eq_true] at hw
    have iha := rtY_node a va hw.1 hca
    have ihb := rtY_node b vb hw.2 hcb
    simp [toNode, MetaYaml.fromNode, iha, ihb]
  | .record fs, v, hw, hc, obj => by
    obtain ⟨vs, rfl, hcf⟩ := canon_rec hc
    simp only [wfShape, Bool.and_eq_true, decide_eq_true_eq] at hw
    have hfields := rtY_fields fs
      (match obj with | .vrec ws => ws | _ => defaultFields fs) vs
      (.map (toNodeFields fs vs)) hw.2 hcf (fieldsPresent_self fs vs hw.1)
    simp only [toNode, MetaYaml.fromNode]
    rw [hfields]

theorem rtY_fields : ∀ (fs : FieldList) (vals0 vals : List Value) (n : Node),
    wfFields fs = true → canonFields fs vals = true → fieldsPresent fs vals n →
    MetaYaml.fromFields fs vals0 n = (vals, okR)
  | .nil, vals0, vals, n, _, hc, _ => by
    cases vals with
    | nil => rfl
    | cons v vs => simp [canonFields] at hc
  | .cons name rq s rest, vals0, vals, n, hw, hc, hp => by
    cases vals with
    | nil => simp [canonFields] at hc
    | cons v vs =>
      simp only [wfFields, Bool.and_eq_true] at hw
      simp only [canonFields, Bool.and_eq_true] at hc
      obtain ⟨hp1, hp2⟩ := hp
      simp only [List.headD_cons] at hp1
      have hfn : n.atKeyY name = toNode s v := by
        simp [Node.atKeyY, hp1]
      have hnn := toNode_notNull s v hc.1
      have hread := rtY_node s v hw.1 hc.1 (vals0.headD (defaultValue s))
      have hrest := rtY_fields rest vals0.tail vs n hw.2 hc.2 (by simpa using hp2)
      simp only [MetaYaml.fromFields, hfn, hnn, Bool.false_eq_true, if_false, hread,
        hrest, prefixedR_okR, mergeR_okR_left]

end

mutual

/-- Reading back the rendered tree of a canonical, fully-populated value of
a double-free shape with the meta.h dispatcher reproduces the value
exactly.  (Double-valued fields are the subject of the round-trip
counterexample: meta.h's floating-point read silently ignores non-integral
scalars.) -/
theorem rtH_node : ∀ (s : Shape) (v : Value), wfShape s = true → noDouble s = true →
    canonV s v = true → ∀ (obj : Value), MetaH.fromNode s obj (toNode s v) = (v, okR)
  | .int, v, _, _, hc, obj => by
    obtain ⟨i, rfl⟩ := canon_int hc
    rfl
  | .double, v, _, hd, hc, obj => by
    simp [noDouble] at hd
  | .bool, v, _, _, hc, obj => by
    obtain ⟨b, rfl⟩ := canon_bool hc
    rfl
  | .str, v, _, _, hc, obj => by
    obtain ⟨t, rfl⟩ := canon_str hc
    rfl
  | .enum m, v, hw, _, hc, obj => by
    obtain ⟨k, name, rfl, hmem⟩ := canon_enum hc
    simp only [wfShape, Bool.and_eq_true, decide_eq_true_eq] at hw
    have hrt := enum_rt hw.1 hw.2 hmem
    simp [toNode, MetaH.fromNode, Node.asString, Scalar.ofString, hrt.1, hrt.2]
  | .opt s, v, hw, hd, hc, obj => by
    obtain ⟨w, rfl, hcw⟩ := canon_opt hc
    have hw' : wfShape s = true := by simpa [wfShape] using hw
    have hd' : noDouble s = true := by simpa [noDouble] using hd
    have hnn := toNode_notNull s w hcw
    have ih := rtH_node s w hw' hd' hcw (defaultValue s)
    simp [toNode, MetaH.fromNode, hnn, ih]
  | .vec s, v, hw, hd, hc, obj => by
    obtain ⟨xs, rfl, hall⟩ := canon_vec hc
    have hw' : wfShape s = true := by simpa [wfShape] using hw
    have hd' : noDouble s = true := by simpa [noDouble] using hd
    have hloop := seqLoop_map_ok (fun x => MetaH.fromNode s (defaultValue s) x)
      (fun w => toNode s w) xs
      (fun w hwmem => rtH_node s w hw' hd' (hall w hwmem) (defaultValue s)) 0
    simp only [toNode, MetaH.fromNode]
    rw [hloop]
  | .smap s, v, hw, hd, hc, obj => by
    obtain ⟨kvs, rfl, hsort, hall⟩ := canon_smap hc
    have hw' : wfShape s = true := by simpa [wfShape] using hw
    have hd' : noDouble s = true := by simpa [noDouble] using hd
    have hkeys : (kvs.map Prod.fst).Nodup := by
      have h1 : (kvs.map Prod.fst).Pairwise (fun a b => a < b) := by
        rw [List.pairwise_map]
        exact hsort
      exact h1.imp ne_of_lt
    have hread : ∀ kv ∈ kvs, ∃ vn,
        (Node.map (kvs.map (fun kv => (kv.1, toNode s kv.2)))).atKeyH kv.1 = some vn ∧
          MetaH.fromNode s (defaultValue s) vn = (kv.2, okR) := by
      intro kv hkv
      have hlk := lookup_map_entries (toNode s) kvs kv.1 kv.2 hkeys
        (by rcases kv with ⟨k0, v0⟩; exact hkv)
      exact ⟨toNode s kv.2, by simpa [Node.atKeyH] using hlk,
        rtH_node s kv.2 hw' hd' (hall kv hkv) (defaultValue s)⟩
    have hloop := mapLoopH_ok (fun x => MetaH.fromNode s (defaultValue s) x)
      (Node.map (kvs.map (fun kv => (kv.1, toNode s kv.2)))) kvs [] hread
      (by simpa using hsort)
    have hfst : (kvs.map (fun kv => (kv.1, toNode s kv.2))).map Prod.fst = kvs.map Prod.fst := by
      simp [List.map_map]
    simp only [toNode, MetaH.fromNode, Node.keys]
    rw [hfst, hloop]
    simp
  | .pair a b, v, hw, hd, hc, obj => by
    obtain ⟨va, vb, rfl, hca, hcb⟩ := canon_pair hc
    simp only [wfShape, Bool.and_eq_true] at hw
    simp only [noDouble, Bool.and_eq_true] at hd
    have iha := rtH_node a va hw.1 hd.1 hca
    have ihb := rtH_node b vb hw.2 hd.2 hcb
    simp [toNode, MetaH.fromNode, iha, ihb]
  | .record fs, v, hw, hd, hc, obj => by
    obtain ⟨vs, rfl, hcf⟩ := canon_rec hc
    simp only [wfShape, Bool.and_eq_true, decide_eq_true_eq] at hw
    simp only [noDouble] at hd
    have hfields := rtH_fields fs
      (match obj with | .vrec ws => ws | _ => defaultFields fs) vs
      (.map (toNodeFields fs vs)) hw.2 hd hcf (fieldsPresent_self fs vs hw.1)
    simp only [toNode, MetaH.fromNode]
    rw [hfields]

theorem rtH_fields : ∀ (fs : FieldList) (vals0 vals : List Value) (n : Node),
    wfFields fs = true → noDoubleFields fs = true → canonFields fs vals = true →
    fieldsPresent fs vals n → MetaH.fromFields fs vals0 n = (vals, okR)
  | .nil, vals0, vals, n, _, _, hc, _ => by
    cases vals with
    | nil => rfl
    | cons v vs => simp [canonFields] at hc
  | .cons name rq s rest, vals0, vals, n, hw, hd, hc, hp => by
    cases vals with
    | nil => simp [canonFields] at hc
    | cons v vs =>
      simp only [wfFields, Bool.and_eq_true] at hw
      simp only [noDoubleFields, Bool.and_eq_true] at hd
      simp only [canonFields, Bool.and_eq_true] at hc
      obtain ⟨hp1, hp2⟩ := hp
      simp only [List.headD_cons] at hp1
      have hread := rtH_node s v hw.1 hd.1 hc.1 (vals0.headD (defaultValue s))
      have hrest := rtH_fields rest vals0.tail vs n hw.2 hd.2 hc.2 (by simpa using hp2)
      simp only [MetaH.fromFields, hp1, hread, hrest, prefixedR_okR, mergeR_okR_left]

end

/-! ## Loop characterization, extensionality, and message lemmas -/

theorem firstDedup_eq_self : ∀ (l : List String), l.Nodup → firstDedup l = l
  | [], _ => by rw [firstDedup]
  | s :: rest, h => by
    simp only [List.nodup_cons] at h
    have hf : rest.filter (fun t => !(t == s)) = rest := by
      apply List.filter_eq_self.mpr
      intro t ht
      simp only [Bool.not_eq_eq_eq_not, Bool.not_true, beq_eq_false_iff_ne, ne_eq]
      intro he
      exact h.1 (he ▸ ht)
    rw [firstDedup, hf, firstDedup_eq_self rest h.2]
termination_by l => l.length

/-- Closed form of the element loop: the output collects exactly the
passing elements in order; the result is valid exactly when all elements
pass; the errors are the concatenation, in index order, of each element's
errors with the `"[i]"` prefix path-joined in front. -/
theorem seqLoop_eq (read : Node → Value × VResult)
    (hinv : ∀ n, ((read n).2).inv) : ∀ (i : Nat) (xs : List Node),
    seqLoop read i xs =
      (xs.filterMap (fun x => if (read x).2.valid then some (read x).1 else none),
       ⟨xs.all (fun x => (read x).2.valid),
        ((xs.enumFrom i).map (fun jx =>
          ((read jx.2).2).errors.map
            (fun fe => (joinPath ("[" ++ toString jx.1 ++ "]") fe.1, fe.2)))).flatten⟩) := by
  intro i xs
  induction xs generalizing i with
  | nil => rfl
  | cons x xs ih =>
    cases hv : (read x).2.valid
    · simp only [seqLoop, hv, Bool.false_eq_true, if_false, ih (i + 1)]
      have hpre := prefixedR_eq ("[" ++ toString i ++ "]") (hinv x)
      rw [hpre]
      simp [mergeR, hv, List.enumFrom]
    · have hemp : ((read x).2).errors = [] := by
        have := hinv x
        rw [VResult.inv, hv] at this
        exact List.isEmpty_iff.mp this.symm
      simp only [seqLoop, hv, if_true, ih (i + 1)]
      simp [hv, hemp, List.enumFrom]

theorem length_filterMap_valid (read : Node → Value × VResult) :
    ∀ (xs : List Node),
    (xs.filterMap (fun x => if (read x).2.valid then some (read x).1 else none)).length
      = xs.length - xs.countP (fun x => !(read x).2.valid) := by
  intro xs
  induction xs with
  | nil => rfl
  | cons x xs ih =>
    have hle := List.countP_le_length (p := fun x => !(read x).2.valid) (l := xs)
    cases hv : (read x).2.valid <;>
      simp [List.filterMap_cons, List.countP_cons, hv, ih] <;> omega

/-- First-match lookup is unaffected by dropping entries whose key fails a
predicate the looked-up key satisfies. -/
theorem lookup_filter (P : String → Bool) :
    ∀ (kvs : List (String × Node)) (name : String), P name = true →
    (kvs.filter (fun kv => P kv.1)).lookup name = kvs.lookup name := by
  intro kvs name hP
  induction kvs with
  | nil => rfl
  | cons kv kvs ih =>
    by_cases hk : P kv.1 = true
    · simp only [List.filter_cons, hk, if_true, List.lookup]
      cases hbe : name == kv.1
      · simpa [List.lookup, hbe] using ih
      · simp [List.lookup, hbe]
    · have hne : (name == kv.1) = false := by
        simp only [beq_eq_false_iff_ne, ne_eq]
        intro he
        rw [← he] at hk
        exact hk hP
      simp only [List.filter_cons, hk, if_false, List.lookup, hne]
      simpa using ih

/-- The record field loop consults the node only through the registered
field names: nodes agreeing on those lookups are read identically
(meta.h flavor). -/
theorem fromFieldsH_ext : ∀ (fs : FieldList) (vals : List Value) (n1 n2 : Node),
    (∀ name, name ∈ fieldNames fs → n1.atKeyH name = n2.atKeyH name) →
    MetaH.fromFields fs vals n1 = MetaH.fromFields fs vals n2
  | .nil, _, _, _, _ => rfl
  | .cons name rq s rest, vals, n1, n2, h => by
    have hh := h name (by simp [fieldNames])
    have ht := fromFieldsH_ext rest vals.tail n1 n2
      (fun nm hmem => h nm (by simp [fieldNames, hmem]))
    simp only [MetaH.fromFields, hh, ht]

/-- As `fromFieldsH_ext`, for the meta_yaml.h flavor. -/
theorem fromFieldsY_ext : ∀ (fs : FieldList) (vals : List Value) (n1 n2 : Node),
    (∀ name, name ∈ fieldNames fs → n1.atKeyH name = n2.atKeyH name) →
    MetaYaml.fromFields fs vals n1 = MetaYaml.fromFields fs vals n2
  | .nil, _, _, _, _ => rfl
  | .cons name rq s rest, vals, n1, n2, h => by
    have hh : n1.atKeyY name = n2.atKeyY name := by
      simp [Node.atKeyY, h name (by simp [fieldNames])]
    have ht := fromFieldsY_ext rest vals.tail n1 n2
      (fun nm hmem => h nm (by simp [fieldNames, hmem]))
    simp only [MetaYaml.fromFields, hh, ht]

/-! ## Substring lemmas for the enum diagnostics -/

theorem occursIn_append_left {needle a : String} (b : String)
    (h : occursIn needle a) : occursIn needle (a ++ b) := by
  rcases h with ⟨pre, post, hsplit⟩
  exact ⟨pre, post ++ b.data, by simp [occursIn, String.data_append, ← hsplit]⟩

theorem occursIn_append_right {needle b : String} (a : String)
    (h : occursIn needle b) : occursIn needle (a ++ b) := by
  rcases h with ⟨pre, post, hsplit⟩
  exact ⟨a.data ++ pre, post, by simp [occursIn, String.data_append, ← hsplit]⟩

theorem occursIn_self (s : String) : occursIn s s :=
  List.infix_refl s.data

theorem occursIn_quoted_head (s : String) (rest : String) :
    occursIn (quoteS s) (quoteS s ++ rest) :=
  occursIn_append_left rest (occursIn_self (quoteS s))

/-- Every quoted name occurs in the joined valid-values list. -/
theorem occursIn_joinQuoted :
    ∀ (l : List String) (v : String), v ∈ l → occursIn (quoteS v) (joinQuoted l) := by
  have hfold : ∀ (l : List String) (acc : String) (v : String),
      occursIn (quoteS v) acc ∨ v ∈ l →
      occursIn (quoteS v) (l.foldl (fun a t => a ++ ", " ++ quoteS t) acc) := by
    intro l
    induction l with
    | nil =>
      intro acc v h
      rcases h with h | h
      · exact h
      · cases h
    | cons t l ih =>
      intro acc v h
      simp only [List.foldl_cons]
      apply ih
      rcases h with h | h
      · exact Or.inl (occursIn_append_left _ (occursIn_append_left _ h))
      · rcases List.mem_cons.mp h with rfl | hmem
        · exact Or.inl (occursIn_append_right _ (occursIn_self _))
        · exact Or.inr hmem
  intro l v hv
  cases l with
  | nil => cases hv
  | cons s rest =>
    rcases List.mem_cons.mp hv with rfl | hmem
    · exact hfold rest (quoteS v) v (Or.inl (occursIn_self _))
    · exact hfold rest (quoteS s) v (Or.inr hmem)

/-- Under distinct names, every registered name occurs (quoted) in
`getValidValues`. -/
theorem occursIn_getValidValues {m : List (Nat × String)}
    (hnd : (m.map Prod.snd).Nodup) {name : String}
    (hmem : name ∈ m.map Prod.snd) :
    occursIn (quoteS name) (getValidValues m) := by
  rw [getValidValues, firstDedup_eq_self _ hnd]
  exact occursIn_joinQuoted _ name hmem

/-! ## Lemmas about the spec-modelled attribute-checking deserializer -/

theorem mergeR_assoc (a b c : VResult) :
    mergeR a (mergeR b c) = mergeR (mergeR a b) c := by
  simp [mergeR, Bool.and_assoc, List.append_assoc]

theorem runVattrs_eq (name : String) (attrs : List Vattr) (v : Value) :
    runVattrs name attrs v =
      ⟨attrs.all (fun a => (runVattr a v).isNone),
       attrs.filterMap (fun a => (runVattr a v).map (fun msg => (name, msg)))⟩ := by
  have hfold : ∀ (l : List Vattr) (acc : VResult),
      l.foldl (fun acc a =>
          match runVattr a v with
          | none => acc
          | some msg => acc.addError name msg) acc =
        ⟨acc.valid && l.all (fun a => (runVattr a v).isNone),
         acc.errors ++ l.filterMap (fun a => (runVattr a v).map (fun msg => (name, msg)))⟩ := by
    intro l
    induction l with
    | nil => intro acc; simp
    | cons a l ih =>
      intro acc
      rcases ha : runVattr a v with _ | msg
      · simp only [List.foldl_cons, ha]
        rw [ih]
        simp [ha, List.all_cons, List.filterMap_cons]
      · simp only [List.foldl_cons, ha]
        rw [ih]
        simp [ha, List.all_cons, List.filterMap_cons, VResult.addError]
  rw [runVattrs, hfold]
  simp [okR]

theorem runVattrs_mem {attrs : List Vattr} {v : Value} {a : Vattr} {msg : String}
    (name : String) (hmem : a ∈ attrs) (hrun : runVattr a v = some msg) :
    (name, msg) ∈ (runVattrs name attrs v).errors ∧
      (runVattrs name attrs v).valid = false := by
  rw [runVattrs_eq]
  constructor
  · exact List.mem_filterMap.mpr ⟨a, hmem, by simp [hrun]⟩
  · rw [Bool.eq_false_iff]
    intro hall
    rw [List.all_eq_true] at hall
    have h2 := hall a hmem
    rw [hrun] at h2
    simp at h2

theorem runVattrs_inv (name : String) (attrs : List Vattr) (v : Value) :
    (runVattrs name attrs v).inv := by
  rw [runVattrs_eq, VResult.inv]
  induction attrs with
  | nil => rfl
  | cons a l ih =>
    rcases ha : runVattr a v with _ | msg
    · simpa [List.all_cons, List.filterMap_cons, ha] using ih
    · simp [List.all_cons, List.filterMap_cons, ha, List.isEmpty]

theorem fromStructV_append : ∀ (l1 l2 : List FieldV) (n : Node),
    fromStructV (l1 ++ l2) n =
      ((fromStructV l1 n).1 ++ (fromStructV l2 n).1,
        mergeR (fromStructV l1 n).2 (fromStructV l2 n).2) := by
  intro l1 l2 n
  induction l1 with
  | nil => simp [fromStructV]
  | cons f l1 ih =>
    rw [List.cons_append, fromStructV, fromStructV, ih]
    simp [mergeR_assoc]

theorem fromStructV_length : ∀ (l : List FieldV) (n : Node),
    (fromStructV l n).1.length = l.length := by
  intro l n
  induction l with
  | nil => rfl
  | cons f l ih => simp [fromStructV, ih]

theorem fromStructV_inv : ∀ (l : List FieldV) (n : Node), ((fromStructV l n).2).inv := by
  intro l n
  induction l with
  | nil => exact okR_inv
  | cons f l ih =>
    simp only [fromStructV]
    refine mergeR_inv ?_ ih
    rcases n.atKeyH f.name with _ | fn
    · show (if f.rq = Requirement.required
          then err1 f.name "Missing required field" else okR).inv
      split
      · exact err1_inv _ _
      · exact okR_inv
    · by_cases hv : (MetaH.fromNode f.s (defaultValue f.s) fn).2.valid = true
      · simp only [hv, if_true]
        exact runVattrs_inv _ _ _
      · simp only [hv, if_false]
        exact prefixedR_inv _ _

/-! ## Claim theorems -/

/-- C9: every `ValidationResult` returned by a deserialization function —
the recursive dispatchers of both engines, the public entry points, and the
attribute-checking record deserializer — satisfies the invariant
`valid == errors.is_empty()`: a result reported valid has no errors, and a
result carrying at least one error is reported invalid. -/
theorem claim_C9_result_invariant :
    (∀ (s : Shape) (obj : Value) (n : Node),
        ((MetaH.fromNode s obj n).2).inv ∧ ((MetaYaml.fromNode s obj n).2).inv) ∧
    (∀ (load : String → Except String Node) (s : Shape) (text : String),
        ((MetaH.reifyFromYaml load s text).2).inv ∧
          ((MetaYaml.fromYaml load s text).2).inv) ∧
    (∀ (fields : List FieldV) (n : Node), ((fromStructV fields n).2).inv) := by
  refine ⟨fun s obj n => ⟨invH_node s obj n, invY_node s obj n⟩, ?_, fromStructV_inv⟩
  intro load s text
  constructor
  · rcases hl : load text with e | n
    · simp [MetaH.reifyFromYaml, hl, err1_inv]
    · simp only [MetaH.reifyFromYaml, hl, MetaH.reifyNode]
      split
      · exact invH_node s (defaultValue s) n
      · exact invH_node s (defaultValue s) n
  · rcases hl : load text with e | n
    · simp [MetaYaml.fromYaml, hl, err1_inv]
    · simp only [MetaYaml.fromYaml, hl]
      split
      · exact invY_node s (defaultValue s) n
      · exact invY_node s (defaultValue s) n

/-- C2 (code-bug evidence): deserializing the empty map into a record with
a required `int` field `"age"` and an optional `string` field `"nick"`.
meta.h's `fromStruct` matches the claim: exactly one error, at path
`"age"`, with message exactly `"Missing required field"`, while the absent
optional field is silent and left holding no value.  meta_yaml.h's struct
overload instead reports `("age", "Invalid integer")` and
`("nick", "Invalid string")`: an absent key yields a zombie (not null)
node, so its `isNull()` absence test never fires — the required field gets
a type error instead of the required-field message and the absent optional
field is an error. -/
theorem claim_C2_missing_required :
    MetaH.fromNode (.record fsC2) (defaultValue (.record fsC2)) (.map []) =
      (.vrec [.vint 0, .vnone], err1 "age" "Missing required field") ∧
    (MetaYaml.fromNode (.record fsC2) (defaultValue (.record fsC2)) (.map [])).2 =
      ⟨false, [("age", "Invalid integer"), ("nick", "Invalid string")]⟩ :=
  ⟨rfl, rfl⟩

/-- C10: both record deserializers read the document only through the
registered field names — filtering the document down to the registered
keys changes nothing, so unrecognized keys produce no error, are stored
nowhere, and have no effect on the result. -/
theorem claim_C10_extra_keys_ignored :
    ∀ (fs : FieldList) (obj : Value) (kvs : List (String × Node)),
    MetaH.fromNode (.record fs) obj (.map kvs) =
      MetaH.fromNode (.record fs) obj
        (.map (kvs.filter (fun kv => (fieldNames fs).contains kv.1))) ∧
    MetaYaml.fromNode (.record fs) obj (.map kvs) =
      MetaYaml.fromNode (.record fs) obj
        (.map (kvs.filter (fun kv => (fieldNames fs).contains kv.1))) := by
  intro fs obj kvs
  have hlk : ∀ name, name ∈ fieldNames fs →
      (Node.map kvs).atKeyH name =
        (Node.map (kvs.filter (fun kv => (fieldNames fs).contains kv.1))).atKeyH name := by
    intro name hmem
    simp only [Node.atKeyH]
    exact (lookup_filter (fun k => (fieldNames fs).contains k) kvs name
      (by simpa using hmem)).symm
  constructor
  · simp only [MetaH.fromNode]
    rw [fromFieldsH_ext fs _ _ _ hlk]
  · simp only [MetaYaml.fromNode]
    rw [fromFieldsY_ext fs _ _ _ hlk]

/-- C6: sequence deserialization (both engines): each failing element
contributes its errors prefixed with `"[i]"`, every element is processed
(validity is the conjunction over all elements), failing elements are
excluded and the successes appear in order, and the output length is the
input length minus the number of failures. -/
theorem claim_C6_vector_semantics :
    ∀ (s : Shape) (obj : Value) (xs : List Node),
    (MetaH.fromNode (.vec s) obj (.seq xs) =
      (.vvec (xs.filterMap (fun x =>
          if (MetaH.fromNode s (defaultValue s) x).2.valid
          then some (MetaH.fromNode s (defaultValue s) x).1 else none)),
       ⟨xs.all (fun x => (MetaH.fromNode s (defaultValue s) x).2.valid),
        ((xs.enumFrom 0).map (fun jx =>
          ((MetaH.fromNode s (defaultValue s) jx.2).2).errors.map
            (fun fe => (joinPath ("[" ++ toString jx.1 ++ "]") fe.1, fe.2)))).flatten⟩)) ∧
    (MetaYaml.fromNode (.vec s) obj (.seq xs) =
      (.vvec (xs.filterMap (fun x =>
          if (MetaYaml.fromNode s (defaultValue s) x).2.valid
          then some (MetaYaml.fromNode s (defaultValue s) x).1 else none)),
       ⟨xs.all (fun x => (MetaYaml.fromNode s (defaultValue s) x).2.valid),
        ((xs.enumFrom 0).map (fun jx =>
          ((MetaYaml.fromNode s (defaultValue s) jx.2).2).errors.map
            (fun fe => (joinPath ("[" ++ toString jx.1 ++ "]") fe.1, fe.2)))).flatten⟩)) ∧
    ((xs.filterMap (fun x =>
        if (MetaH.fromNode s (defaultValue s) x).2.valid
        then some (MetaH.fromNode s (defaultValue s) x).1 else none)).length =
      xs.length - xs.countP (fun x => !(MetaH.fromNode s (defaultValue s) x).2.valid)) ∧
    ((xs.filterMap (fun x =>
        if (MetaYaml.fromNode s (defaultValue s) x).2.valid
        then some (MetaYaml.fromNode s (defaultValue s) x).1 else none)).length =
      xs.length - xs.countP (fun x => !(MetaYaml.fromNode s (defaultValue s) x).2.valid)) := by
  intro s obj xs
  refine ⟨?_, ?_, ?_, ?_⟩
  · simp only [MetaH.fromNode]
    rw [seqLoop_eq _ (fun x => invH_node s (defaultValue s) x) 0 xs]
  · simp only [MetaYaml.fromNode]
    rw [seqLoop_eq _ (fun x => invY_node s (defaultValue s) x) 0 xs]
  · exact length_filterMap_valid _ xs
  · exact length_filterMap_valid _ xs

theorem inv_valid_errors_nil {r : VResult} (hinv : r.inv) (hv : r.valid = true) :
    r.errors = [] := by
  rw [VResult.inv, hv] at hinv
  exact List.isEmpty_iff.mp hinv.symm

/-- C5 (counterexample): a pair deserialization in the yaml-only engine
where both positions fail — the string read of position 0 fails with
`"Invalid string"`, the int read of position 1 fails with
`"Invalid integer"` — yet the returned result carries only the second
position's error: the first's has been overwritten. -/
theorem claim_C5_counterexample :
    (MetaYaml.fromNode .str (.vstr "") (Node.seq [])).2 = err1 "" "Invalid string" ∧
    (MetaYaml.fromNode .int (.vint 0) (Node.scalar (.ofString "x"))).2 =
      err1 "" "Invalid integer" ∧
    (MetaYaml.fromNode (.pair .str .int) (.vpair (.vstr "") (.vint 0))
        (.seq [Node.seq [], Node.scalar (.ofString "x")])).2 =
      err1 "" "Invalid integer" :=
  ⟨rfl, rfl, rfl⟩

/-- C5 (amended): on a two-element sequence, meta.h's `fromPair` gathers
the errors of both positions, prefixed `"[0]"` / `"[1]"`, and is valid
exactly when both positions are; the yaml-only pair overload instead
returns the second position's result when it failed (dropping the
first's), else the first position's result when it failed, else a valid
result — with no position prefix. -/
theorem claim_C5_amended :
    ∀ (a b : Shape) (va vb : Value) (n0 n1 : Node),
    (MetaH.fromNode (.pair a b) (.vpair va vb) (.seq [n0, n1]) =
      (.vpair (MetaH.fromNode a va n0).1 (MetaH.fromNode b vb n1).1,
       ⟨(MetaH.fromNode a va n0).2.valid && (MetaH.fromNode b vb n1).2.valid,
        (MetaH.fromNode a va n0).2.errors.map (fun fe => (joinPath "[0]" fe.1, fe.2)) ++
          (MetaH.fromNode b vb n1).2.errors.map (fun fe => (joinPath "[1]" fe.1, fe.2))⟩)) ∧
    (MetaYaml.fromNode (.pair a b) (.vpair va vb) (.seq [n0, n1]) =
      (.vpair (MetaYaml.fromNode a va n0).1 (MetaYaml.fromNode b vb n1).1,
       if (MetaYaml.fromNode b vb n1).2.valid = false then (MetaYaml.fromNode b vb n1).2
       else if (MetaYaml.fromNode a va n0).2.valid = false then (MetaYaml.fromNode a va n0).2
       else okR)) := by
  intro a b va vb n0 n1
  constructor
  · have hik := invH_node a va n0
    have hiv := invH_node b vb n1
    simp only [MetaH.fromNode]
    rw [prefixedR_eq "[0]" hik, prefixedR_eq "[1]" hiv]
    by_cases hk : (MetaH.fromNode a va n0).2.valid <;>
      by_cases hv2 : (MetaH.fromNode b vb n1).2.valid
    · have ek := inv_valid_errors_nil hik hk
      have ev := inv_valid_errors_nil hiv hv2
      simp [hk, hv2, mergeR, okR, ek, ev]
    · simp [hk, hv2, mergeR]
    · simp [hk, hv2, mergeR]
    · simp [hk, hv2, mergeR]
  · rfl

/-- C4 (counterexample): the meta.h enum deserializer, given the value
`"xyz"` against the red/green/blue table, reports only
`"Unknown enum value: xyz"` — the registered valid value `"red"` does not
occur (quoted) in the message. -/
theorem claim_C4_counterexample :
    (MetaH.fromNode (.enum rgbEnum) (.venum 0) (.scalar (.ofString "xyz"))).2 =
      err1 "" "Unknown enum value: xyz" ∧
    ¬ occursIn (quoteS "red") "Unknown enum value: xyz" :=
  ⟨rfl, by decide⟩

/-- C4 (amended): the yaml-only enum deserializer, on a text node whose
string is not in the table, returns a single error whose message carries
the offending value and the joined, quoted valid-values list — every
registered string value occurs, quoted, in the message. -/
theorem claim_C4_amended :
    ∀ (m : List (Nat × String)) (obj : Value) (sc : Scalar) (s : String),
    (m.map Prod.snd).Nodup → sc.asString = some s → stringToEnum m s = none →
    (MetaYaml.fromNode (.enum m) obj (.scalar sc)).2 =
      err1 "" ("Unknown enum value " ++ quoteS s ++ ". Valid values are: " ++
        getValidValues m) ∧
    ∀ name ∈ m.map Prod.snd,
      occursIn (quoteS name)
        ("Unknown enum value " ++ quoteS s ++ ". Valid values are: " ++
          getValidValues m) := by
  intro m obj sc s hnd hs hnone
  constructor
  · simp [MetaYaml.fromNode, Node.asString, hs, hnone]
  · intro name hmem
    exact occursIn_append_right _ (occursIn_getValidValues hnd hmem)

theorem claim_C4_witness :
    (MetaYaml.fromNode (.enum rgbEnum) (.venum 0) (.scalar (.ofString "purple"))).2 =
      err1 "" ("Unknown enum value " ++ quoteS "purple" ++ ". Valid values are: " ++
        getValidValues rgbEnum) ∧
    occursIn (quoteS "red") ("Unknown enum value " ++ quoteS "purple" ++
      ". Valid values are: " ++ getValidValues rgbEnum) ∧
    occursIn (quoteS "green") ("Unknown enum value " ++ quoteS "purple" ++
      ". Valid values are: " ++ getValidValues rgbEnum) ∧
    occursIn (quoteS "blue") ("Unknown enum value " ++ quoteS "purple" ++
      ". Valid values are: " ++ getValidValues rgbEnum) := by
  have h := claim_C4_amended rgbEnum (.venum 0) (.ofString "purple") "purple"
    (by decide) rfl rfl
  exact ⟨h.1, h.2 "red" (by decide), h.2 "green" (by decide), h.2 "blue" (by decide)⟩

/-- C7 (counterexample): meta.h's floating-point read, on a scalar holding
the non-integral double 2.5 (whose integer coercion fails), emits no error
and leaves the slot unchanged — the result is valid and empty rather than
invalid with `"Invalid double"`. -/
theorem claim_C7_counterexample :
    Node.asInt (Node.scalar (.ofDouble q52)) = none ∧
    MetaH.fromNode .double (.vdouble 0) (.scalar (.ofDouble q52)) = (.vdouble 0, okR) :=
  ⟨rfl, rfl⟩

/-- C7 (amended): primitive reads emit exactly one error `"Invalid <kind>"`
at the current (empty) path and leave the slot unchanged when the coercion
fails — for all four yaml-only primitives (the floating-point read also
widening a source integer node) and for meta.h's int/string/bool reads.
meta.h's floating-point read is the exception recorded in the
counterexample. -/
theorem claim_C7_amended :
    ∀ (n : Node) (obj : Value),
    (n.asInt = none → MetaYaml.fromNode .int obj n = (obj, err1 "" "Invalid integer")) ∧
    (∀ i, n.asInt = some i → MetaYaml.fromNode .int obj n = (.vint i, okR)) ∧
    (n.asDouble = none → n.asInt = none →
      MetaYaml.fromNode .double obj n = (obj, err1 "" "Invalid double")) ∧
    (∀ i, n.asDouble = none → n.asInt = some i →
      MetaYaml.fromNode .double obj n = (.vdouble (i : Rat), okR)) ∧
    (n.asString = none → MetaYaml.fromNode .str obj n = (obj, err1 "" "Invalid string")) ∧
    (n.asBool = none → MetaYaml.fromNode .bool obj n = (obj, err1 "" "Invalid boolean")) ∧
    (n.asInt = none → MetaH.fromNode .int obj n = (obj, err1 "" "Invalid integer")) ∧
    (n.asString = none → MetaH.fromNode .str obj n = (obj, err1 "" "Invalid string")) ∧
    (n.asBool = none → MetaH.fromNode .bool obj n = (obj, err1 "" "Invalid boolean")) := by
  intro n obj
  refine ⟨?_, ?_, ?_, ?_, ?_, ?_, ?_, ?_, ?_⟩ <;> intros <;>
    simp_all [MetaYaml.fromNode, MetaH.fromNode, Option.orElse]

theorem claim_C7_witness :
    MetaYaml.fromNode .int (.vint 7) Node.null = (.vint 7, err1 "" "Invalid integer") ∧
    MetaYaml.fromNode .double (.vdouble 0) (.scalar ⟨some 3, none, none, none⟩) =
      (.vdouble ((3 : Int) : Rat), okR) ∧
    MetaYaml.fromNode .double (.vdouble 0) Node.null =
      (.vdouble 0, err1 "" "Invalid double") ∧
    MetaH.fromNode .bool (.vbool false) Node.null =
      (.vbool false, err1 "" "Invalid boolean") :=
  ⟨(claim_C7_amended Node.null (.vint 7)).1 rfl,
    (claim_C7_amended _ _).2.2.2.1 3 rfl rfl,
    (claim_C7_amended _ _).2.2.1 rfl rfl,
    (claim_C7_amended _ _).2.2.2.2.2.2.2.2 rfl⟩

/-- C3: in the spec-modelled attribute-checking record deserializer (the
invocation is absent from src/, see `fromStructV`; the validators
themselves are field.h's), a field carrying a constraint attribute whose
validator rejects the successfully type-read value yields an error at that
field's name, an invalid overall result, and the read value is kept in the
output at the field's position. -/
theorem claim_C3_validators :
    ∀ (pre post : List FieldV) (f : FieldV) (n fn : Node) (a : Vattr) (msg : String),
    a ∈ f.attrs →
    n.atKeyH f.name = some fn →
    (MetaH.fromNode f.s (defaultValue f.s) fn).2.valid = true →
    runVattr a (MetaH.fromNode f.s (defaultValue f.s) fn).1 = some msg →
    (f.name, msg) ∈ (fromStructV (pre ++ f :: post) n).2.errors ∧
    (fromStructV (pre ++ f :: post) n).2.valid = false ∧
    (fromStructV (pre ++ f :: post) n).1[pre.length]? =
      some (MetaH.fromNode f.s (defaultValue f.s) fn).1 := by
  intro pre post f n fn a msg hmem hat hvalid hrun
  have hsplit := fromStructV_append pre (f :: post) n
  have hmid : fromStructV (f :: post) n =
      ((MetaH.fromNode f.s (defaultValue f.s) fn).1 :: (fromStructV post n).1,
        mergeR (runVattrs f.name f.attrs (MetaH.fromNode f.s (defaultValue f.s) fn).1)
          (fromStructV post n).2) := by
    simp only [fromStructV, hat, hvalid, if_true]
  have hrv := runVattrs_mem f.name hmem hrun
  refine ⟨?_, ?_, ?_⟩
  · rw [hsplit, hmid]
    simp only [mergeR]
    exact List.mem_append.mpr (Or.inr (List.mem_append.mpr (Or.inl hrv.1)))
  · rw [hsplit, hmid]
    simp [mergeR, hrv.2]
  · rw [hsplit, hmid]
    have hlen : (fromStructV pre n).1.length = pre.length := fromStructV_length pre n
    simp only []
    rw [List.getElem?_append_right (by rw [hlen])]
    simp [hlen]

theorem claim_C3_witness :
    ("port", "Value not in whitelist: \x7b80, 443, 8080, 8443\x7d") ∈
      (fromStructV [portField] (.map [("port", .scalar (.ofInt 9999))])).2.errors ∧
    (fromStructV [portField] (.map [("port", .scalar (.ofInt 9999))])).2.valid = false ∧
    (fromStructV [portField] (.map [("port", .scalar (.ofInt 9999))])).1[0]? =
      some (.vint 9999) := by
  have h := claim_C3_validators [] [] portField (.map [("port", .scalar (.ofInt 9999))])
    (.scalar (.ofInt 9999)) (.wlist [80, 443, 8080, 8443])
    ("Value not in whitelist: \x7b80, 443, 8080, 8443\x7d")
    (by simp [portField]) rfl rfl rfl
  simpa using h

/-- C8: the top-level parse entry points (both engines), over an abstracted
external loader: the value is present exactly when the result is valid; a
loader failure (the exception the catch block receives) produces no value
and exactly one error at the fixed top-level path `"yaml"`; a successful
load runs the dispatcher on a default-initialized object and returns its
result, with the value present on validity.  (Totality of the embedding
reflects that no exception escapes.) -/
theorem claim_C8_entry_points :
    ∀ (load : String → Except String Node) (s : Shape) (text : String),
    ((MetaH.reifyFromYaml load s text).1.isSome ↔
      (MetaH.reifyFromYaml load s text).2.valid = true) ∧
    (∀ e, load text = .error e →
      MetaH.reifyFromYaml load s text = (none, err1 "yaml" e)) ∧
    (∀ n, load text = .ok n →
      MetaH.reifyFromYaml load s text =
        (if (MetaH.fromNode s (defaultValue s) n).2.valid
          then some (MetaH.fromNode s (defaultValue s) n).1 else none,
          (MetaH.fromNode s (defaultValue s) n).2)) ∧
    ((MetaYaml.fromYaml load s text).1.isSome ↔
      (MetaYaml.fromYaml load s text).2.valid = true) ∧
    (∀ e, load text = .error e →
      MetaYaml.fromYaml load s text = (none, err1 "yaml" e)) ∧
    (∀ n, load text = .ok n →
      MetaYaml.fromYaml load s text =
        (if (MetaYaml.fromNode s (defaultValue s) n).2.valid
          then some (MetaYaml.fromNode s (defaultValue s) n).1 else none,
          (MetaYaml.fromNode s (defaultValue s) n).2)) := by
  intro load s text
  rcases hl : load text with e | n
  · refine ⟨?_, ?_, ?_, ?_, ?_, ?_⟩
    · simp [MetaH.reifyFromYaml, hl, err1, VResult.addError]
    · intro e2 he2
      injection he2 with he
      subst he
      simp [MetaH.reifyFromYaml, hl]
    · intro n2 hn2
      simp at hn2
    · simp [MetaYaml.fromYaml, hl, err1, VResult.addError]
    · intro e2 he2
      injection he2 with he
      subst he
      simp [MetaYaml.fromYaml, hl]
    · intro n2 hn2
      simp at hn2
  · refine ⟨?_, ?_, ?_, ?_, ?_, ?_⟩
    · by_cases hv : (MetaH.fromNode s (defaultValue s) n).2.valid <;>
        simp [MetaH.reifyFromYaml, MetaH.reifyNode, hl, hv]
    · intro e2 he2
      simp at he2
    · intro n2 hn2
      injection hn2 with hn
      subst hn
      by_cases hv : (MetaH.fromNode s (defaultValue s) n).2.valid <;>
        simp [MetaH.reifyFromYaml, MetaH.reifyNode, hl, hv]
    · by_cases hv : (MetaYaml.fromNode s (defaultValue s) n).2.valid <;>
        simp [MetaYaml.fromYaml, hl, hv]
    · intro e2 he2
      simp at he2
    · intro n2 hn2
      injection hn2 with hn
      subst hn
      by_cases hv : (MetaYaml.fromNode s (defaultValue s) n).2.valid <;>
        simp [MetaYaml.fromYaml, hl, hv]

theorem claim_C8_witness :
    MetaH.reifyFromYaml (fun _ => Except.error "boom") .int "doc" =
      (none, err1 "yaml" "boom") ∧
    MetaYaml.fromYaml (fun _ => Except.error "boom") .int "doc" =
      (none, err1 "yaml" "boom") := by
  have h := claim_C8_entry_points (fun _ => Except.error "boom") .int "doc"
  exact ⟨h.2.1 "boom" rfl, h.2.2.2.2.1 "boom" rfl⟩

/-- C1 (counterexample): `sC1` is a supported, well-formed record type with
one required `double` field and `vC1` a fully-populated canonical value
of it (holding 2.5).  Parsing the rendered tree of `vC1` with the meta.h
engine succeeds with a *valid* result, yet the returned value holds the
default `0.0` — `parse(render(v))` is `(Some v0, valid)` with `v0 ≠ v`. -/
theorem claim_C1_counterexample :
    wfShape sC1 = true ∧ canonV sC1 vC1 = true ∧
    MetaH.reifyNode sC1 (toNode sC1 vC1) = (some (.vrec [.vdouble 0]), okR) ∧
    Value.vrec [Value.vdouble 0] ≠ vC1 := by
  refine ⟨rfl, rfl, rfl, ?_⟩
  simp only [vC1, ne_eq, Value.vrec.injEq, List.cons.injEq, and_true, Value.vdouble.injEq]
  intro h
  have h2 : (0 : Rat).num = q52.num := congrArg Rat.num h
  rw [show q52.num = 5 from rfl] at h2
  exact absurd h2 (by decide)

/-- C1 (amended): for every well-formed supported shape and every
fully-populated canonical value, and any document text that the external
backend parses to the value's rendered tree, the yaml-only entry point
returns `(Some v, valid)` with `v` reproduced exactly; the meta.h entry
point does the same for shapes that avoid `double` (its floating-point
read silently loses non-integral values, see the counterexample). -/
theorem claim_C1_amended :
    ∀ (s : Shape) (v : Value), wfShape s = true → canonV s v = true →
    (∀ (load : String → Except String Node) (text : String),
        load text = .ok (toNode s v) →
        MetaYaml.fromYaml load s text = (some v, okR)) ∧
    (noDouble s = true →
      ∀ (load : String → Except String Node) (text : String),
        load text = .ok (toNode s v) →
        MetaH.reifyFromYaml load s text = (some v, okR)) := by
  intro s v hw hc
  constructor
  · intro load text hl
    have h := rtY_node s v hw hc (defaultValue s)
    simp [MetaYaml.fromYaml, hl, h]
  · intro hd load text hl
    have h := rtH_node s v hw hd hc (defaultValue s)
    simp [MetaH.reifyFromYaml, hl, MetaH.reifyNode, h]

theorem claim_C1_witness :
    MetaYaml.fromYaml (fun _ => Except.ok (toNode sW1 vW1)) sW1 "doc" =
      (some vW1, okR) ∧
    MetaH.reifyFromYaml (fun _ => Except.ok (toNode sW2 vW2)) sW2 "doc" =
      (some vW2, okR) :=
  ⟨(claim_C1_amended sW1 vW1 rfl rfl).1 _ "doc" rfl,
    (claim_C1_amended sW2 vW2 rfl rfl).2 rfl _ "doc" rfl⟩

end MetaHSpec
